import Mathlib

/-!
# String matching primitives of `src/algo/algo.go`

A shallow embedding of the five matchers (`FuzzyMatch`, `ExactMatchNaive`,
`PrefixMatch`, `SuffixMatch`, `EqualMatch`) and of their helpers, followed by
the properties proved about them.

Conventions of the embedding.

* A Go `rune` is an `int32`; it is modelled by `Int`.  The only arithmetic the
  source performs on a rune is `+ 32` on a value in `'A'..'Z'`, which cannot
  overflow.
* A Go `int` index is modelled by `Int`, so that a subtraction such as
  `index -= pidx` is not silently truncated at zero.  Slice lengths are far
  below `2^63`, so no index computation of the source overflows.
* A slice `[]rune` is a `List Int`.  A slice access outside `0 <= i < len`
  is a run-time panic in Go; it is modelled by the fault `indexOutOfRange`.
* Loops and recursion whose termination is not structural carry a fuel
  argument; running out of fuel is the fault `fuelExhausted`.  The top-level
  matchers supply a fuel that is proved sufficient.
* Functions of the Go standard library (`unicode.ToLower`,
  `unicode.To(unicode.LowerCase, ·)`) and of package `util` (`TrimRight`) are
  not part of the source file; they are parameters of the embedding.
-/

namespace Algo

/-- The ways in which a run of the embedded code can fail to return. -/
inductive Fault where
  | indexOutOfRange
  | fuelExhausted
  deriving DecidableEq, Repr

deriving instance DecidableEq for Except

/-- Outcome of a matcher: the returned pair `(start, end)`, or a fault. -/
abbrev Result := Except Fault (Int × Int)

/-- Functions of Go's `unicode` package used by the source. -/
structure Unicode where
  /-- Go's `unicode.ToLower`. -/
  toLower : Int → Int
  /-- Go's `unicode.To(unicode.LowerCase, ·)`. -/
  toLowerCase : Int → Int

/-- Slice access `runes[i]`: panics outside `0 <= i < len(runes)`. -/
def index (runes : List Int) (i : Int) : Except Fault Int :=
  if 0 ≤ i ∧ i < runes.length then .ok (runes.getD i.toNat 0)
  else .error .indexOutOfRange

/-- `runeAt` (algo.go:18). -/
def runeAt (runes : List Int) (idx : Int) (max : Int) (forward : Bool) :
    Except Fault Int :=
  if forward then index runes idx else index runes (max - idx - 1)

/-- `IsLower` (algo.go:25). -/
def IsLower (ch : Int) : Bool := decide (97 ≤ ch) && decide (ch ≤ 122)

/-- `IsUpper` (algo.go:29). -/
def IsUpper (ch : Int) : Bool := decide (65 ≤ ch) && decide (ch ≤ 90)

/-- `IsLetter` (algo.go:33). -/
def IsLetter (ch : Int) : Bool := IsLower ch || IsUpper ch

/-- `IsDigit` (algo.go:37). -/
def IsDigit (ch : Int) : Bool := decide (48 ≤ ch) && decide (ch ≤ 57)

/-- `IsLetterDigit` (algo.go:41). -/
def IsLetterDigit (ch : Int) : Bool := IsLetter ch || IsDigit ch

/-- `ToLower` (algo.go:45). -/
def ToLower (char : Int) : Int :=
  if 65 ≤ char ∧ char ≤ 90 then char + 32 else char

/-- The acceptance test of the scan loop of `FuzzyMatchHelper`
(algo.go:73-76), on the already lowered `curr` and `prev`. -/
def boundaryTest (curr prev : Int) : Bool :=
  (IsUpper curr && !IsUpper prev) ||
  (IsLower curr && !IsLetter prev) ||
  (IsDigit curr && !IsDigit prev) ||
  (!IsLetterDigit curr && decide (curr ≠ prev))

/-- The `for i := r + 1; i < len(runes); i++` loop of `FuzzyMatchHelper`
(algo.go:67-82).  `n` is the number of iterations left, `len(runes) - i`;
`rec i'` stands for the recursive call `FuzzyMatchHelper(runes, i', pat, p + 1)`. -/
def fuzzyScan (runes : List Int) (p_ch : Int) (rec : Int → Result) :
    Nat → Int → Result
  | 0, _ => .ok (-1, -1)
  | n + 1, i =>
    match index runes i with
    | .error f => .error f
    | .ok ci =>
      match index runes (i - 1) with
      | .error f => .error f
      | .ok pi =>
        let curr := ToLower ci
        let prev := ToLower pi
        if curr ≠ p_ch then fuzzyScan runes p_ch rec n (i + 1)
        else if boundaryTest curr prev then
          match rec (i + 1) with
          | .error f => .error f
          | .ok (_, e) =>
            if e ≥ 0 then .ok (i, e) else fuzzyScan runes p_ch rec n (i + 1)
        else fuzzyScan runes p_ch rec n (i + 1)

/-- `FuzzyMatchHelper` (algo.go:52).  The fuel bounds the recursion depth. -/
def FuzzyMatchHelper (runes : List Int) (pat : List Int) :
    Nat → Int → Int → Result
  | 0, _, _ => .error .fuelExhausted
  | fuel + 1, r, p =>
    if p = pat.length then .ok (r, r)
    else if r = runes.length then .ok (-1, -1)
    else
      match index pat p with
      | .error f => .error f
      | .ok pc =>
        let p_ch := ToLower pc
        match index runes r with
        | .error f => .error f
        | .ok rc =>
          let scan : Result :=
            fuzzyScan runes p_ch (fun i => FuzzyMatchHelper runes pat fuel i (p + 1))
              (runes.length - (r + 1)).toNat (r + 1)
          if ToLower rc = p_ch then
            match FuzzyMatchHelper runes pat fuel (r + 1) (p + 1) with
            | .error f => .error f
            | .ok (_, e) => if e ≥ 0 then .ok (p, e) else scan
          else scan

/-- `FuzzyMatch` (algo.go:87).  Both flags are ignored by the source. -/
def FuzzyMatch (_caseSensitive _forward : Bool) (runes pattern : List Int) : Result :=
  if pattern.length = 0 then .ok (0, 0)
  else FuzzyMatchHelper runes pattern (pattern.length + 1) 0 0

/-- The per-character folding of `ExactMatchNaive` (algo.go:116-122). -/
def exactFold (U : Unicode) (caseSensitive : Bool) (char : Int) : Int :=
  if !caseSensitive then
    if 65 ≤ char ∧ char ≤ 90 then char + 32
    else if char > 127 then U.toLowerCase char
    else char
  else char

/-- The scan loop of `ExactMatchNaive` (algo.go:113-137), from the loop test
with the current values of `index` and `pidx`. -/
def exactLoop (U : Unicode) (caseSensitive forward : Bool) (runes pattern : List Int) :
    Nat → Int → Int → Result
  | 0, _, _ => .error .fuelExhausted
  | fuel + 1, idx, pidx =>
    let lenRunes : Int := runes.length
    let lenPattern : Int := pattern.length
    if idx < lenRunes then
      match runeAt runes idx lenRunes forward with
      | .error f => .error f
      | .ok c =>
        let char := exactFold U caseSensitive c
        match runeAt pattern pidx lenPattern forward with
        | .error f => .error f
        | .ok pchar =>
          if pchar = char then
            if pidx + 1 = lenPattern then
              if forward then .ok (idx - lenPattern + 1, idx + 1)
              else .ok (lenRunes - (idx + 1), lenRunes - (idx - lenPattern + 1))
            else exactLoop U caseSensitive forward runes pattern fuel (idx + 1) (pidx + 1)
          else exactLoop U caseSensitive forward runes pattern fuel (idx - pidx + 1) 0
    else .ok (-1, -1)

/-- `ExactMatchNaive` (algo.go:101). -/
def ExactMatchNaive (U : Unicode) (caseSensitive forward : Bool)
    (runes pattern : List Int) : Result :=
  if pattern.length = 0 then .ok (0, 0)
  else if runes.length < pattern.length then .ok (-1, -1)
  else
    exactLoop U caseSensitive forward runes pattern
      ((runes.length + 1) * (pattern.length + 1) + 1) 0 0

/-- The `for index, r := range pattern` loops of `PrefixMatch` (algo.go:146) and
`SuffixMatch` (algo.go:167): they differ only in the offset `diff` added to the
index (`0` in `PrefixMatch`).  `rest` is the part of the pattern still to be
ranged over, `idx` the index of its head.  Returns whether no character differed. -/
def rangeLoop (U : Unicode) (caseSensitive : Bool) (runes : List Int) (diff : Int) :
    List Int → Int → Except Fault Bool
  | [], _ => .ok true
  | r :: rest, idx =>
    match index runes (idx + diff) with
    | .error f => .error f
    | .ok c =>
      let char := if !caseSensitive then U.toLower c else c
      if char ≠ r then .ok false
      else rangeLoop U caseSensitive runes diff rest (idx + 1)

/-- `PrefixMatch` (algo.go:141). -/
def PrefixMatch (U : Unicode) (caseSensitive _forward : Bool)
    (runes pattern : List Int) : Result :=
  if runes.length < pattern.length then .ok (-1, -1)
  else
    match rangeLoop U caseSensitive runes 0 pattern 0 with
    | .error f => .error f
    | .ok false => .ok (-1, -1)
    | .ok true => .ok (0, pattern.length)

/-- `SuffixMatch` (algo.go:159); `trimRight` stands for `util.TrimRight`. -/
def SuffixMatch (U : Unicode) (trimRight : List Int → List Int)
    (caseSensitive _forward : Bool) (input pattern : List Int) : Result :=
  let runes := trimRight input
  let trimmedLen : Int := runes.length
  let diff : Int := trimmedLen - pattern.length
  if diff < 0 then .ok (-1, -1)
  else
    match rangeLoop U caseSensitive runes diff pattern 0 with
    | .error f => .error f
    | .ok false => .ok (-1, -1)
    | .ok true => .ok (trimmedLen - pattern.length, trimmedLen)

/-- Whether a rune has a UTF-8 encoding: a Unicode scalar value. -/
def validRune (c : Int) : Bool :=
  decide (0 ≤ c) && decide (c ≤ 1114111) && !(decide (55296 ≤ c) && decide (c ≤ 57343))

/-- The code point a rune is encoded as when it is converted to a string: a
rune without a UTF-8 encoding becomes U+FFFD (Go language specification,
conversions to a string type). -/
def encodeRune (c : Int) : Int := if validRune c then c else 65533

/-- The conversion `string(runes)`.  A Go string is the UTF-8 encoding of a
sequence of scalar values and UTF-8 is injective on them, so the string is
represented by that sequence; string equality is equality of the sequences. -/
def goString (runes : List Int) : List Int := runes.map encodeRune

/-- Go's `strings.ToLower`, that is `strings.Map(unicode.ToLower, s)`: every
code point of `s` is mapped; a negative result is dropped, any other result is
encoded into the new string. -/
def stringsToLower (U : Unicode) (s : List Int) : List Int :=
  s.filterMap (fun c => if U.toLower c < 0 then none else some (encodeRune (U.toLower c)))

/-- `EqualMatch` (algo.go:180). -/
def EqualMatch (U : Unicode) (caseSensitive _forward : Bool)
    (runes pattern : List Int) : Result :=
  if runes.length ≠ pattern.length then .ok (-1, -1)
  else
    let runesStr := goString runes
    let runesStr := if !caseSensitive then stringsToLower U runesStr else runesStr
    if runesStr = goString pattern then .ok (0, pattern.length) else .ok (-1, -1)

/-- A stand-in for Go's `unicode` package that lowers the ASCII letters only;
used to evaluate the matchers on ASCII inputs. -/
def asciiUnicode : Unicode where
  toLower := ToLower
  toLowerCase := fun c => c

/-- Modelled from the spec: `util.TrimRight` is not part of the source file; it
"produces the haystack with trailing whitespace code points removed, preserving
all preceding code points".  Whitespace is taken to be space and tab. -/
def TrimRight : List Int → List Int
  | [] => []
  | c :: rest =>
    match TrimRight rest with
    | [] => if c = 32 ∨ c = 9 then [] else [c]
    | t => c :: t

/-- The runes of a string literal. -/
def runesOf (s : String) : List Int := s.toList.map (fun c => (c.toNat : Int))

/-- The haystack view `a` contains the pattern view `b` at start `s`. -/
def occ (a b : Nat → Int) (lenH lenP s : Nat) : Prop :=
  s + lenP ≤ lenH ∧ ∀ k, k < lenP → a (s + k) = b k

/-- The pair `ExactMatchNaive` returns for an occurrence found at start `s` of the
scanned view. -/
def exactSpan (fwd : Bool) (lenH lenP s : Nat) : Int × Int :=
  if fwd then ((s : Int), (s : Int) + lenP) else ((lenH : Int) - (s + lenP), (lenH : Int) - s)

/-- The pattern `p` occurs in `h` as the contiguous slice `h[s .. s+len(p))`. -/
def occursAt (h p : List Int) (s : Nat) : Prop :=
  s + p.length ≤ h.length ∧ (h.drop s).take p.length = p

instance (h p : List Int) (s : Nat) : Decidable (occursAt h p s) := by
  unfold occursAt; infer_instance

/-- The haystack as `ExactMatchNaive` scans it: folded, and read from the far end
when scanning backward. -/
def hayView (U : Unicode) (cs fwd : Bool) (runes : List Int) (i : Nat) : Int :=
  exactFold U cs (runes.getD (if fwd then i else runes.length - 1 - i) 0)

/-- The pattern as `ExactMatchNaive` reads it. -/
def patView (fwd : Bool) (pattern : List Int) (j : Nat) : Int :=
  pattern.getD (if fwd then j else pattern.length - 1 - j) 0

/-- Clauses (b), (c), (d) of the acceptance test, the ones that can hold of a
lowered character. -/
def lowerBoundary (curr prev : Int) : Bool :=
  (IsLower curr && !IsLetter prev) ||
  (IsDigit curr && !IsDigit prev) ||
  (!IsLetterDigit curr && decide (curr ≠ prev))

/-- Iteration `i` of the scan loop accepts: the character matches, the position
passes the acceptance test, and the recursive call succeeds. -/
def scanHit (h : List Int) (p_ch : Int) (rec : Int → Result) (i : Nat) : Prop :=
  ToLower (h.getD i 0) = p_ch ∧
  boundaryTest (ToLower (h.getD i 0)) (ToLower (h.getD (i - 1) 0)) = true ∧
  ∃ s e, rec ((i : Int) + 1) = .ok (s, e) ∧ 0 ≤ e

/-- The positions `idx` are a way for `FuzzyMatchHelper(runes, r, pat, p)` to match
the pattern from index `p` on: every position carries the lowered pattern character,
and is either the position right at the cursor (the direct attempt) or a later
position that passes the acceptance test (the scan loop). -/
def admissible (h pat : List Int) : Nat → Nat → List Nat → Prop
  | _, p, [] => p = pat.length
  | r, p, i :: rest =>
    r ≤ i ∧ i < h.length ∧ p < pat.length ∧
    ToLower (h.getD i 0) = ToLower (pat.getD p 0) ∧
    (i = r ∨ lowerBoundary (ToLower (h.getD i 0)) (ToLower (h.getD (i - 1) 0)) = true) ∧
    admissible h pat (i + 1) (p + 1) rest

/-- One past the last position of `idx`, or the cursor when `idx` is empty. -/
def endOf : Nat → List Nat → Nat
  | r, [] => r
  | _, i :: rest => endOf (i + 1) rest

/-- The first component `FuzzyMatchHelper(runes, r, pat, p)` returns when it matches
along `idx`: the pattern index `p` after a direct attempt, the position after a scan. -/
def startOf (r p : Nat) : List Nat → Nat
  | [] => r
  | i :: _ => if i = r then p else i

instance admissibleDecidable (h pat : List Int) :
    ∀ (r p : Nat) (idx : List Nat), Decidable (admissible h pat r p idx)
  | _, p, [] => inferInstanceAs (Decidable (p = pat.length))
  | r, p, i :: rest =>
    have := admissibleDecidable h pat (i + 1) (p + 1) rest
    inferInstanceAs (Decidable (r ≤ i ∧ i < h.length ∧ p < pat.length ∧
      ToLower (h.getD i 0) = ToLower (pat.getD p 0) ∧
      (i = r ∨ lowerBoundary (ToLower (h.getD i 0)) (ToLower (h.getD (i - 1) 0)) = true) ∧
      admissible h pat (i + 1) (p + 1) rest))

/-- The character `PrefixMatch` and `SuffixMatch` compare with the pattern character:
the haystack character, passed through `unicode.ToLower` unless the match is case
sensitive. -/
def foldWith (U : Unicode) (caseSensitive : Bool) (c : Int) : Int :=
  if !caseSensitive then U.toLower c else c

/-- A result is a match: a returned pair other than `(-1, -1)`. -/
def Matches (res : Result) : Prop :=
  ∃ s e : Int, res = .ok (s, e) ∧ (s, e) ≠ (-1, -1)

/-- A result is a returned pair that is `(-1, -1)` or a span inside the haystack. -/
def spanInRange (h : List Int) (res : Result) : Prop :=
  ∃ s e : Int, res = .ok (s, e) ∧
    ((s, e) = (-1, -1) ∨ (0 ≤ s ∧ s ≤ e ∧ e ≤ (h.length : Int)))

/-! ## Properties -/

theorem exactLoop_core (U : Unicode) (cs fwd : Bool) (runes pattern : List Int)
    (a b : Nat → Int)
    (ha : ∀ i : Nat, i < runes.length →
      ∃ c, runeAt runes i runes.length fwd = .ok c ∧ exactFold U cs c = a i)
    (hb : ∀ j : Nat, j < pattern.length → runeAt pattern j pattern.length fwd = .ok (b j)) :
    ∀ (fuel i j : Nat), j < pattern.length → j ≤ i → i ≤ runes.length →
      (∀ k, k < j → a (i - j + k) = b k) →
      (∀ t, t < i - j → ¬ occ a b runes.length pattern.length t) →
      (runes.length - (i - j)) * (pattern.length + 1) + (pattern.length - j) < fuel →
      (∃ s, occ a b runes.length pattern.length s ∧
          (∀ t, t < s → ¬ occ a b runes.length pattern.length t) ∧
          exactLoop U cs fwd runes pattern fuel i j
            = .ok (exactSpan fwd runes.length pattern.length s)) ∨
      ((∀ s, ¬ occ a b runes.length pattern.length s) ∧
          exactLoop U cs fwd runes pattern fuel i j = .ok (-1, -1)) := by
  intro fuel
  induction fuel with
  | zero => intro i j _ _ _ _ _ hf; omega
  | succ fuel ih =>
    intro i j hj hji hi hpre hno hf
    unfold exactLoop
    by_cases hlt : i < runes.length
    · have hlt' : (i : Int) < (runes.length : Int) := by exact_mod_cast hlt
      obtain ⟨c, hc, hca⟩ := ha i hlt
      simp only [hlt', if_true, hc, hb j hj, hca]
      by_cases heq : b j = a i
      · simp only [heq, if_true]
        by_cases hlast : j + 1 = pattern.length
        · have hlast' : (j : Int) + 1 = (pattern.length : Int) := by exact_mod_cast hlast
          simp only [hlast', if_true]
          left
          refine ⟨i - j, ⟨by omega, ?_⟩, hno, ?_⟩
          · intro k hk
            by_cases hkj : k < j
            · exact hpre k hkj
            · have : k = j := by omega
              subst this
              have : i - k + k = i := by omega
              rw [this]; exact heq.symm
          · unfold exactSpan
            cases fwd
            · simp only [Bool.false_eq_true, if_false]
              congr 2 <;> omega
            · simp only [if_true]
              congr 2 <;> omega
        · have hlast' : ¬ ((j : Int) + 1 = (pattern.length : Int)) := by
            intro h; exact hlast (by exact_mod_cast h)
          simp only [hlast', if_false]
          have hcast : ((i : Int) + 1) = ((i + 1 : Nat) : Int) := by push_cast; rfl
          have hcast2 : ((j : Int) + 1) = ((j + 1 : Nat) : Int) := by push_cast; rfl
          rw [hcast, hcast2]
          have hs : i + 1 - (j + 1) = i - j := by omega
          apply ih (i + 1) (j + 1) (by omega) (by omega) (by omega)
          · intro k hk
            rw [hs]
            by_cases hkj : k < j
            · exact hpre k hkj
            · have : k = j := by omega
              subst this
              have : i - k + k = i := by omega
              rw [this]; exact heq.symm
          · rw [hs]; exact hno
          · rw [hs]; omega
      · simp only [heq, if_false]
        have hcast : ((i : Int) - (j : Int) + 1) = ((i - j + 1 : Nat) : Int) := by
          push_cast [Nat.cast_sub hji]; rfl
        have hcast0 : (0 : Int) = ((0 : Nat) : Int) := rfl
        rw [hcast, hcast0]
        apply ih (i - j + 1) 0 (by omega) (by omega) (by omega)
        · intro k hk; omega
        · intro t ht hocc
          by_cases hts : t < i - j
          · exact hno t hts hocc
          · have : t = i - j := by omega
            subst this
            have := hocc.2 j hj
            have h2 : i - j + j = i := by omega
            rw [h2] at this
            exact heq this.symm
        · have h1 : runes.length - (i - j) = (runes.length - (i - j + 1 - 0)) + 1 := by omega
          rw [h1, Nat.add_mul] at hf
          omega
    · have hlt' : ¬ ((i : Int) < (runes.length : Int)) := by
        intro h; exact hlt (by exact_mod_cast h)
      simp only [hlt', if_false]
      right
      refine ⟨?_, trivial⟩
      intro s hocc
      by_cases hs : s < i - j
      · exact hno s hs hocc
      · have := hocc.1
        omega

theorem index_nat (runes : List Int) (i : Nat) (hi : i < runes.length) :
    index runes (i : Int) = .ok (runes.getD i 0) := by
  unfold index
  have h1 : (0 : Int) ≤ (i : Int) ∧ (i : Int) < (runes.length : Int) :=
    ⟨Int.natCast_nonneg i, by exact_mod_cast hi⟩
  simp only [h1, and_self, if_true, Int.toNat_ofNat]

theorem runeAt_forward (runes : List Int) (i : Nat) (hi : i < runes.length) :
    runeAt runes i runes.length true = .ok (runes.getD i 0) := by
  unfold runeAt
  simp only [if_true]
  exact index_nat runes i hi

theorem runeAt_backward (runes : List Int) (i : Nat) (hi : i < runes.length) :
    runeAt runes i runes.length false = .ok (runes.getD (runes.length - 1 - i) 0) := by
  unfold runeAt
  simp only [Bool.false_eq_true, if_false]
  have : ((runes.length : Int) - (i : Int) - 1) = ((runes.length - 1 - i : Nat) : Int) := by
    omega
  rw [this]
  exact index_nat runes _ (by omega)

theorem exactMatchNaive_core (U : Unicode) (cs fwd : Bool) (runes pattern : List Int)
    (hp : pattern ≠ []) :
    (∃ s, occ (hayView U cs fwd runes) (patView fwd pattern) runes.length pattern.length s ∧
        (∀ t, t < s →
          ¬ occ (hayView U cs fwd runes) (patView fwd pattern) runes.length pattern.length t) ∧
        ExactMatchNaive U cs fwd runes pattern
          = .ok (exactSpan fwd runes.length pattern.length s)) ∨
    ((∀ s, ¬ occ (hayView U cs fwd runes) (patView fwd pattern) runes.length pattern.length s) ∧
        ExactMatchNaive U cs fwd runes pattern = .ok (-1, -1)) := by
  have hlen : 0 < pattern.length := List.length_pos.mpr hp
  unfold ExactMatchNaive
  have h0 : ¬ (pattern.length = 0) := by omega
  simp only [h0, if_false]
  by_cases hshort : runes.length < pattern.length
  · simp only [hshort, if_true]
    right
    refine ⟨?_, trivial⟩
    intro s hs
    have := hs.1
    omega
  · simp only [hshort, if_false]
    have ha : ∀ i : Nat, i < runes.length →
        ∃ c, runeAt runes i runes.length fwd = .ok c ∧
          exactFold U cs c = hayView U cs fwd runes i := by
      intro i hi
      cases fwd
      · exact ⟨_, runeAt_backward runes i hi, by simp [hayView]⟩
      · exact ⟨_, runeAt_forward runes i hi, by simp [hayView]⟩
    have hb : ∀ j : Nat, j < pattern.length →
        runeAt pattern j pattern.length fwd = .ok (patView fwd pattern j) := by
      intro j hj
      cases fwd
      · rw [runeAt_backward pattern j hj]; simp [patView]
      · rw [runeAt_forward pattern j hj]; simp [patView]
    have := exactLoop_core U cs fwd runes pattern _ _ ha hb
      ((runes.length + 1) * (pattern.length + 1) + 1) 0 0 hlen (le_refl _) (Nat.zero_le _)
      (by intro k hk; omega) (by intro t ht; omega)
      (by rw [Nat.add_mul]; simp only [Nat.sub_zero]; omega)
    simpa using this

theorem getD_take_drop (h : List Int) (s n k : Nat) (hk : k < n) (hs : s + n ≤ h.length) :
    ((h.drop s).take n).getD k 0 = h.getD (s + k) 0 := by
  rw [List.getD_eq_getElem _ _ (by simp; omega), List.getD_eq_getElem _ _ (by omega)]
  simp

theorem occursAt_iff (h p : List Int) (s : Nat) :
    occursAt h p s ↔
      s + p.length ≤ h.length ∧ ∀ k, k < p.length → h.getD (s + k) 0 = p.getD k 0 := by
  unfold occursAt
  constructor
  · rintro ⟨h1, h2⟩
    refine ⟨h1, ?_⟩
    intro k hk
    rw [← getD_take_drop h s p.length k hk h1, h2]
  · rintro ⟨h1, h2⟩
    refine ⟨h1, ?_⟩
    apply List.ext_getElem
    · simp; omega
    · intro k hk1 hk2
      have := h2 k hk2
      rw [← getD_take_drop h s p.length k hk2 h1] at this
      rw [List.getD_eq_getElem _ _ hk1, List.getD_eq_getElem _ _ hk2] at this
      exact this

theorem exactFold_caseSensitive (U : Unicode) (c : Int) : exactFold U true c = c := by
  simp [exactFold]

theorem occ_forward_iff (U : Unicode) (h p : List Int) (s : Nat) :
    occ (hayView U true true h) (patView true p) h.length p.length s ↔ occursAt h p s := by
  rw [occursAt_iff]
  simp [occ, hayView, patView, exactFold_caseSensitive]

theorem occ_backward_iff (U : Unicode) (h p : List Int) (s : Nat) (hs : s + p.length ≤ h.length) :
    occ (hayView U true false h) (patView false p) h.length p.length s ↔
      occursAt h p (h.length - p.length - s) := by
  rw [occursAt_iff]
  simp only [occ, hayView, patView, exactFold_caseSensitive, Bool.false_eq_true, if_false]
  constructor
  · rintro ⟨_, h2⟩
    refine ⟨by omega, ?_⟩
    intro k hk
    have := h2 (p.length - 1 - k) (by omega)
    have e1 : h.length - 1 - (s + (p.length - 1 - k)) = h.length - p.length - s + k := by omega
    have e2 : p.length - 1 - (p.length - 1 - k) = k := by omega
    rw [e1, e2] at this
    exact this
  · rintro ⟨_, h2⟩
    refine ⟨hs, ?_⟩
    intro k hk
    have := h2 (p.length - 1 - k) (by omega)
    have e1 : h.length - p.length - s + (p.length - 1 - k) = h.length - 1 - (s + k) := by omega
    rw [e1] at this
    exact this

theorem ok_pair_ne_sentinel (s : Nat) (e : Int) :
    (Except.ok ((s : Int), e) : Result) ≠ .ok (-1, -1) := by
  intro h
  injection h with h
  have h1 := congrArg Prod.fst h
  simp only at h1
  omega

/-- C1: for a non-empty pattern, the case-sensitive forward scan of `ExactMatchNaive`
returns `(s, s + len(p))` for the smallest start `s` at which `p` occurs in `h`, and
returns `(-1, -1)` exactly when `p` occurs nowhere in `h`. -/
theorem exactMatchNaive_forward_first_occurrence (U : Unicode) (h p : List Int)
    (hp : p ≠ []) :
    (∀ s : Nat, occursAt h p s → (∀ t, t < s → ¬ occursAt h p t) →
        ExactMatchNaive U true true h p = .ok ((s : Int), (s : Int) + p.length)) ∧
    (ExactMatchNaive U true true h p = .ok (-1, -1) ↔ ¬ ∃ s, occursAt h p s) := by
  rcases exactMatchNaive_core U true true h p hp with ⟨s0, h1, h2, h3⟩ | ⟨h1, h2⟩
  · rw [occ_forward_iff] at h1
    refine ⟨?_, ?_⟩
    · intro s hs hmin
      have e : s = s0 := by
        rcases Nat.lt_trichotomy s s0 with hlt | heq | hgt
        · exact absurd ((occ_forward_iff U h p s).mpr hs) (h2 s hlt)
        · exact heq
        · exact absurd h1 (hmin s0 hgt)
      rw [h3, e]
      simp [exactSpan]
    · constructor
      · intro hres
        rw [h3] at hres
        simp only [exactSpan, if_true] at hres
        exact absurd hres (ok_pair_ne_sentinel _ _)
      · intro hno
        exact absurd ⟨s0, h1⟩ hno
  · refine ⟨?_, ?_⟩
    · intro s hs _
      exact absurd ((occ_forward_iff U h p s).mpr hs) (h1 s)
    · constructor
      · intro _
        rintro ⟨s, hs⟩
        exact h1 s ((occ_forward_iff U h p s).mpr hs)
      · intro _
        exact h2

/-- Witness for C1: the first of the two occurrences of "bc" in "abcabc". -/
theorem exactMatchNaive_forward_first_occurrence_witness :
    ExactMatchNaive asciiUnicode true true (runesOf "abcabc") (runesOf "bc") = .ok (1, 3) :=
  (exactMatchNaive_forward_first_occurrence asciiUnicode (runesOf "abcabc") (runesOf "bc")
    (by decide)).1 1 (by decide) (by decide)

/-- C2: for a non-empty pattern, the case-sensitive backward scan of `ExactMatchNaive`
returns, in forward index space, `(s, s + len(p))` for the largest start `s` at which
`p` occurs in `h`, and returns `(-1, -1)` exactly when `p` occurs nowhere in `h`. -/
theorem exactMatchNaive_backward_last_occurrence (U : Unicode) (h p : List Int)
    (hp : p ≠ []) :
    (∀ s : Nat, occursAt h p s → (∀ t, s < t → ¬ occursAt h p t) →
        ExactMatchNaive U true false h p = .ok ((s : Int), (s : Int) + p.length)) ∧
    (ExactMatchNaive U true false h p = .ok (-1, -1) ↔ ¬ ∃ s, occursAt h p s) := by
  have flip : ∀ s : Nat, occursAt h p s →
      occ (hayView U true false h) (patView false p) h.length p.length
        (h.length - p.length - s) := by
    intro s hs
    have hb := hs.1
    rw [occ_backward_iff U h p _ (by omega)]
    have : h.length - p.length - (h.length - p.length - s) = s := by omega
    rw [this]
    exact hs
  rcases exactMatchNaive_core U true false h p hp with ⟨s0, h1, h2, h3⟩ | ⟨h1, h2⟩
  · have hb0 := h1.1
    have h1' := (occ_backward_iff U h p s0 hb0).mp h1
    have hspan : exactSpan false h.length p.length s0
        = (((h.length - p.length - s0 : Nat) : Int),
            ((h.length - p.length - s0 : Nat) : Int) + p.length) := by
      simp only [exactSpan, Bool.false_eq_true, if_false]
      congr 1 <;> omega
    refine ⟨?_, ?_⟩
    · intro s hs hmax
      have hb := hs.1
      have e : s = h.length - p.length - s0 := by
        rcases Nat.lt_trichotomy s (h.length - p.length - s0) with hlt | heq | hgt
        · exact absurd h1' (hmax _ hlt)
        · exact heq
        · exact absurd (flip s hs) (h2 _ (by omega))
      rw [h3, hspan, e]
    · constructor
      · intro hres
        rw [h3, hspan] at hres
        exact absurd hres (ok_pair_ne_sentinel _ _)
      · intro hno
        exact absurd ⟨_, h1'⟩ hno
  · refine ⟨?_, ?_⟩
    · intro s hs _
      exact absurd (flip s hs) (h1 _)
    · constructor
      · intro _
        rintro ⟨s, hs⟩
        exact h1 _ (flip s hs)
      · intro _
        exact h2

/-- Witness for C2: the last of the two occurrences of "bc" in "abcabc". -/
theorem exactMatchNaive_backward_last_occurrence_witness :
    ExactMatchNaive asciiUnicode true false (runesOf "abcabc") (runesOf "bc") = .ok (4, 6) :=
  (exactMatchNaive_backward_last_occurrence asciiUnicode (runesOf "abcabc") (runesOf "bc")
    (by decide)).1 4 (by decide)
    (fun t ht hocc => by
      have h1 := hocc.1
      have h2 : (runesOf "abcabc").length = 6 := by decide
      have h3 : (runesOf "bc").length = 2 := by decide
      omega)

theorem fuzzyScan_spec (h : List Int) (p_ch : Int) (rec : Int → Result)
    (hrec : ∀ i : Nat, i < h.length → ∃ s e, rec ((i : Int) + 1) = .ok (s, e)) :
    ∀ (n i : Nat), 1 ≤ i → i + n = h.length →
      (∃ j s e, i ≤ j ∧ j < h.length ∧ scanHit h p_ch rec j ∧
          (∀ j', i ≤ j' → j' < j → ¬ scanHit h p_ch rec j') ∧
          rec ((j : Int) + 1) = .ok (s, e) ∧ 0 ≤ e ∧
          fuzzyScan h p_ch rec n i = .ok ((j : Int), e)) ∨
      ((∀ j, i ≤ j → j < h.length → ¬ scanHit h p_ch rec j) ∧
          fuzzyScan h p_ch rec n i = .ok (-1, -1)) := by
  intro n
  induction n with
  | zero =>
    intro i _ hi
    right
    refine ⟨?_, rfl⟩
    intro j h1 h2; omega
  | succ n ih =>
    intro i h1 hi
    have hil : i < h.length := by omega
    have hc : index h (i : Int) = .ok (h.getD i 0) := index_nat h i hil
    have hp : index h ((i : Int) - 1) = .ok (h.getD (i - 1) 0) := by
      have : ((i : Int) - 1) = ((i - 1 : Nat) : Int) := by omega
      rw [this]
      exact index_nat h (i - 1) (by omega)
    have hnext : ((i : Int) + 1) = ((i + 1 : Nat) : Int) := by push_cast; rfl
    have step : ¬ scanHit h p_ch rec i →
        fuzzyScan h p_ch rec n ((i + 1 : Nat) : Int) = fuzzyScan h p_ch rec (n + 1) (i : Int) →
        (∃ j s e, i ≤ j ∧ j < h.length ∧ scanHit h p_ch rec j ∧
          (∀ j', i ≤ j' → j' < j → ¬ scanHit h p_ch rec j') ∧
          rec ((j : Int) + 1) = .ok (s, e) ∧ 0 ≤ e ∧
          fuzzyScan h p_ch rec (n + 1) i = .ok ((j : Int), e)) ∨
        ((∀ j, i ≤ j → j < h.length → ¬ scanHit h p_ch rec j) ∧
          fuzzyScan h p_ch rec (n + 1) i = .ok (-1, -1)) := by
      intro hnot heq
      rcases ih (i + 1) (by omega) (by omega) with ⟨j, s, e, a1, a2, a3, a4, a5, a6, a7⟩ | ⟨b1, b2⟩
      · left
        refine ⟨j, s, e, by omega, a2, a3, ?_, a5, a6, by rw [← heq]; exact a7⟩
        intro j' c1 c2
        by_cases hj : j' = i
        · subst hj; exact hnot
        · exact a4 j' (by omega) c2
      · right
        refine ⟨?_, by rw [← heq]; exact b2⟩
        intro j c1 c2
        by_cases hj : j = i
        · subst hj; exact hnot
        · exact b1 j (by omega) c2
    by_cases hm : ToLower (h.getD i 0) = p_ch
    · by_cases hb : boundaryTest (ToLower (h.getD i 0)) (ToLower (h.getD (i - 1) 0)) = true
      · obtain ⟨s, e, hr⟩ := hrec i hil
        have hb' := hb
        rw [hm] at hb'
        by_cases he : 0 ≤ e
        · left
          refine ⟨i, s, e, le_refl _, hil, ⟨hm, hb, s, e, hr, he⟩, ?_, hr, he, ?_⟩
          · intro j' c1 c2; omega
          · unfold fuzzyScan
            simp only [hc, hp, hm, hb', hr, ne_eq, not_true_eq_false, if_false, if_true,
              ge_iff_le, he]
        · apply step
          · rintro ⟨_, _, s', e', hr', he'⟩
            rw [hr] at hr'
            injection hr' with hr'
            have := congrArg Prod.snd hr'
            simp only at this
            omega
          · conv_rhs => unfold fuzzyScan
            simp only [hc, hp, hm, hb', hr, ne_eq, not_true_eq_false, if_false, if_true,
              ge_iff_le, he]
            rfl
      · have hb' := hb
        rw [hm] at hb'
        apply step
        · rintro ⟨_, hb2, _⟩
          exact hb hb2
        · conv_rhs => unfold fuzzyScan
          simp only [hc, hp, hm, hb', ne_eq, not_true_eq_false, if_false, Bool.false_eq_true]
          rfl
    · apply step
      · rintro ⟨hm', _⟩
        exact hm hm'
      · conv_rhs => unfold fuzzyScan
        simp only [hc, hp, hm, ne_eq, not_false_eq_true, if_true]
        rfl

theorem isUpper_toLower (c : Int) : IsUpper (ToLower c) = false := by
  unfold IsUpper ToLower
  by_cases hc : 65 ≤ c ∧ c ≤ 90
  · rw [if_pos hc]
    simp only [Bool.and_eq_false_imp, decide_eq_true_eq, decide_eq_false_iff_not]
    omega
  · rw [if_neg hc]
    simp only [Bool.and_eq_false_imp, decide_eq_true_eq, decide_eq_false_iff_not]
    intro h1 h2; exact hc ⟨h1, h2⟩

theorem boundaryTest_toLower (c q : Int) :
    boundaryTest (ToLower c) q = lowerBoundary (ToLower c) q := by
  unfold boundaryTest lowerBoundary
  rw [isUpper_toLower]
  simp

theorem fuzzyMatchHelper_spec (h pat : List Int) :
    ∀ (fuel r p : Nat), r ≤ h.length → p ≤ pat.length → pat.length - p < fuel →
      (∃ idx, admissible h pat r p idx ∧
          FuzzyMatchHelper h pat fuel r p
            = .ok (((startOf r p idx : Nat) : Int), ((endOf r idx : Nat) : Int))) ∨
      ((∀ idx, ¬ admissible h pat r p idx) ∧
          FuzzyMatchHelper h pat fuel r p = .ok (-1, -1)) := by
  intro fuel
  induction fuel with
  | zero => intro r p _ _ hf; omega
  | succ fuel ih =>
    intro r p hr hp hf
    by_cases hpe : p = pat.length
    · left
      refine ⟨[], hpe, ?_⟩
      unfold FuzzyMatchHelper
      simp [hpe, startOf, endOf]
    have hpe' : ¬ ((p : Int) = (pat.length : Int)) := by
      intro hh; exact hpe (by exact_mod_cast hh)
    by_cases hre : r = h.length
    · right
      refine ⟨?_, ?_⟩
      · intro idx hadm
        cases idx with
        | nil => exact hpe hadm
        | cons i rest =>
          have := hadm.1
          have := hadm.2.1
          omega
      · unfold FuzzyMatchHelper
        simp [hpe', hre]
    have hre' : ¬ ((r : Int) = (h.length : Int)) := by
      intro hh; exact hre (by exact_mod_cast hh)
    have hrl : r < h.length := by omega
    have hpl : p < pat.length := by omega
    have hpc : index pat (p : Int) = .ok (pat.getD p 0) := index_nat pat p hpl
    have hrc : index h (r : Int) = .ok (h.getD r 0) := index_nat h r hrl
    have hr1 : ((r : Int) + 1) = ((r + 1 : Nat) : Int) := by push_cast; rfl
    have hp1 : ((p : Int) + 1) = ((p + 1 : Nat) : Int) := by push_cast; rfl
    have hn : ((h.length : Int) - ((r + 1 : Nat) : Int)).toNat = h.length - (r + 1) := by omega
    have hrecok : ∀ i : Nat, i < h.length →
        ∃ s e, FuzzyMatchHelper h pat fuel ((i : Int) + 1) ((p + 1 : Nat) : Int) = .ok (s, e) := by
      intro i hi
      have hi1 : ((i : Int) + 1) = ((i + 1 : Nat) : Int) := by push_cast; rfl
      rw [hi1]
      rcases ih (i + 1) (p + 1) (by omega) (by omega) (by omega) with ⟨idx, _, h2⟩ | ⟨_, h2⟩
      · exact ⟨_, _, h2⟩
      · exact ⟨_, _, h2⟩
    -- the scan loop, when the direct attempt is of no use
    have hscan : (∀ rest, ¬ (ToLower (h.getD r 0) = ToLower (pat.getD p 0) ∧
          admissible h pat (r + 1) (p + 1) rest)) →
        (∃ idx, admissible h pat r p idx ∧
          fuzzyScan h (ToLower (pat.getD p 0))
              (fun i => FuzzyMatchHelper h pat fuel i ((p + 1 : Nat) : Int))
              (h.length - (r + 1)) ((r + 1 : Nat) : Int)
            = .ok (((startOf r p idx : Nat) : Int), ((endOf r idx : Nat) : Int))) ∨
        ((∀ idx, ¬ admissible h pat r p idx) ∧
          fuzzyScan h (ToLower (pat.getD p 0))
              (fun i => FuzzyMatchHelper h pat fuel i ((p + 1 : Nat) : Int))
              (h.length - (r + 1)) ((r + 1 : Nat) : Int) = .ok (-1, -1)) := by
      intro hdirect
      rcases fuzzyScan_spec h (ToLower (pat.getD p 0))
          (fun i => FuzzyMatchHelper h pat fuel i ((p + 1 : Nat) : Int)) hrecok
          (h.length - (r + 1)) (r + 1) (by omega) (by omega)
        with ⟨j, s, e, a1, a2, a3, _, a5, a6, a7⟩ | ⟨b1, b2⟩
      · left
        have hj1 : ((j : Int) + 1) = ((j + 1 : Nat) : Int) := by push_cast; rfl
        simp only [hj1] at a5
        rcases ih (j + 1) (p + 1) (by omega) (by omega) (by omega) with ⟨rest, c1, c2⟩ | ⟨_, c2⟩
        · rw [c2] at a5
          injection a5 with a5
          have he := congrArg Prod.snd a5
          simp only at he
          refine ⟨j :: rest, ⟨by omega, a2, hpl, a3.1, Or.inr ?_, c1⟩, ?_⟩
          · rw [← boundaryTest_toLower]; exact a3.2.1
          · rw [a7, ← he]
            have : j ≠ r := by omega
            simp [startOf, endOf, this]
        · rw [c2] at a5
          injection a5 with a5
          have he := congrArg Prod.snd a5
          simp only at he
          omega
      · right
        refine ⟨?_, b2⟩
        intro idx hadm
        cases idx with
        | nil => exact hpe hadm
        | cons i rest =>
          obtain ⟨d1, d2, _, d4, d5, d6⟩ := hadm
          by_cases hir : i = r
          · subst hir
            exact hdirect rest ⟨d4, d6⟩
          · have hlb : lowerBoundary (ToLower (h.getD i 0)) (ToLower (h.getD (i - 1) 0)) = true := by
              rcases d5 with d5 | d5
              · exact absurd d5 hir
              · exact d5
            apply b1 i (by omega) d2
            refine ⟨d4, by rw [boundaryTest_toLower]; exact hlb, ?_⟩
            have hi1 : ((i : Int) + 1) = ((i + 1 : Nat) : Int) := by push_cast; rfl
            simp only [hi1]
            rcases ih (i + 1) (p + 1) (by omega) (by omega) (by omega) with ⟨rest', _, c2⟩ | ⟨c1, _⟩
            · exact ⟨_, _, c2, Int.natCast_nonneg _⟩
            · exact absurd d6 (c1 rest)
    unfold FuzzyMatchHelper
    simp only [hpe', hre', if_false, hpc, hrc, hr1, hp1, hn]
    by_cases hm : ToLower (h.getD r 0) = ToLower (pat.getD p 0)
    · simp only [hm, if_true]
      rcases ih (r + 1) (p + 1) (by omega) (by omega) (by omega) with ⟨rest, c1, c2⟩ | ⟨c1, c2⟩
      · left
        refine ⟨r :: rest, ⟨le_refl _, hrl, hpl, hm, Or.inl rfl, c1⟩, ?_⟩
        rw [c2]
        simp [startOf, endOf]
      · rw [c2]
        simp only [ge_iff_le, Int.reduceNeg, Left.nonneg_neg_iff, Int.reduceLE, if_false]
        apply hscan
        rintro rest ⟨_, h2⟩
        exact c1 rest h2
    · simp only [hm, if_false]
      apply hscan
      rintro rest ⟨h1, _⟩
      exact hm h1

theorem admissible_length (h pat : List Int) :
    ∀ (idx : List Nat) (r p : Nat), admissible h pat r p idx → idx.length + p = pat.length := by
  intro idx
  induction idx with
  | nil => intro r p hadm; simpa using hadm
  | cons i rest ih =>
    intro r p hadm
    have := ih (i + 1) (p + 1) hadm.2.2.2.2.2
    simp only [List.length_cons]
    omega

theorem admissible_bounds (h pat : List Int) :
    ∀ (idx : List Nat) (r p : Nat), admissible h pat r p idx →
      ∀ j ∈ idx, r ≤ j ∧ j < h.length := by
  intro idx
  induction idx with
  | nil => intro r p _ j hj; simp at hj
  | cons i rest ih =>
    intro r p hadm j hj
    rcases List.mem_cons.mp hj with hj | hj
    · subst hj; exact ⟨hadm.1, hadm.2.1⟩
    · have := ih (i + 1) (p + 1) hadm.2.2.2.2.2 j hj
      have := hadm.1
      omega

theorem admissible_pairwise (h pat : List Int) :
    ∀ (idx : List Nat) (r p : Nat), admissible h pat r p idx → idx.Pairwise (· < ·) := by
  intro idx
  induction idx with
  | nil => intro r p _; exact List.Pairwise.nil
  | cons i rest ih =>
    intro r p hadm
    refine List.Pairwise.cons ?_ (ih (i + 1) (p + 1) hadm.2.2.2.2.2)
    intro j hj
    have := (admissible_bounds h pat rest (i + 1) (p + 1) hadm.2.2.2.2.2 j hj).1
    omega

theorem admissible_chars (h pat : List Int) :
    ∀ (idx : List Nat) (r p : Nat), admissible h pat r p idx →
      ∀ k, k < idx.length →
        idx.getD k 0 < h.length ∧
        ToLower (h.getD (idx.getD k 0) 0) = ToLower (pat.getD (p + k) 0) := by
  intro idx
  induction idx with
  | nil => intro r p _ k hk; simp at hk
  | cons i rest ih =>
    intro r p hadm k hk
    cases k with
    | zero => exact ⟨hadm.2.1, hadm.2.2.2.1⟩
    | succ k =>
      have := ih (i + 1) (p + 1) hadm.2.2.2.2.2 k (by simpa using hk)
      have e : p + (k + 1) = p + 1 + k := by omega
      rw [e]
      simpa using this

theorem endOf_bounds (h pat : List Int) :
    ∀ (idx : List Nat) (r p : Nat), r ≤ h.length → admissible h pat r p idx →
      r ≤ endOf r idx ∧ endOf r idx ≤ h.length := by
  intro idx
  induction idx with
  | nil => intro r p hr _; exact ⟨le_refl _, hr⟩
  | cons i rest ih =>
    intro r p hr hadm
    have h1 := hadm.1
    have h2 := hadm.2.1
    have := ih (i + 1) (p + 1) (by omega) hadm.2.2.2.2.2
    simp only [endOf]
    omega

theorem endOf_last :
    ∀ (idx : List Nat) (r : Nat), idx ≠ [] → endOf r idx = idx.getD (idx.length - 1) 0 + 1 := by
  intro idx
  induction idx with
  | nil => intro r hne; exact absurd rfl hne
  | cons i rest ih =>
    intro r _
    cases rest with
    | nil => simp [endOf]
    | cons j rest' =>
      have := ih (i + 1) (by simp)
      simp only [endOf] at this ⊢
      rw [this]
      simp

theorem admissible_sublist (h pat : List Int) :
    ∀ (idx : List Nat) (r p : Nat), admissible h pat r p idx →
      List.Sublist ((pat.drop p).map ToLower) ((h.drop r).map ToLower) := by
  intro idx
  induction idx with
  | nil =>
    intro r p hadm
    have : p = pat.length := hadm
    subst this
    simp
  | cons i rest ih =>
    intro r p hadm
    obtain ⟨h1, h2, h3, h4, _, h6⟩ := hadm
    have hrec := ih (i + 1) (p + 1) h6
    have e1 : pat.drop p = pat.getD p 0 :: pat.drop (p + 1) := by
      rw [List.getD_eq_getElem _ _ h3]
      exact List.drop_eq_getElem_cons h3
    have e2 : h.drop i = h.getD i 0 :: h.drop (i + 1) := by
      rw [List.getD_eq_getElem _ _ h2]
      exact List.drop_eq_getElem_cons h2
    have hstep : List.Sublist ((pat.drop p).map ToLower) ((h.drop i).map ToLower) := by
      rw [e1, e2, List.map_cons, List.map_cons, h4]
      exact List.Sublist.cons₂ _ hrec
    have hdrop : List.Sublist (h.drop i) (h.drop r) := List.drop_sublist_drop_left h h1
    exact hstep.trans (hdrop.map ToLower)

/-- The outcome of `FuzzyMatch` on a non-empty pattern. -/
theorem fuzzyMatch_spec (cs fwd : Bool) (h p : List Int) (hp : p ≠ []) :
    (∃ idx, admissible h p 0 0 idx ∧
        FuzzyMatch cs fwd h p = .ok (((idx.getD 0 0 : Nat) : Int), ((endOf 0 idx : Nat) : Int))) ∨
    ((∀ idx, ¬ admissible h p 0 0 idx) ∧ FuzzyMatch cs fwd h p = .ok (-1, -1)) := by
  have hlen : 0 < p.length := List.length_pos.mpr hp
  have h0 : ¬ (p.length = 0) := by omega
  unfold FuzzyMatch
  simp only [h0, if_false]
  have := fuzzyMatchHelper_spec h p (p.length + 1) 0 0 (Nat.zero_le _) (Nat.zero_le _) (by omega)
  simp only [Nat.cast_zero] at this
  rcases this with ⟨idx, c1, c2⟩ | ⟨c1, c2⟩
  · left
    refine ⟨idx, c1, ?_⟩
    rw [c2]
    cases idx with
    | nil => simp [startOf]
    | cons i rest =>
      by_cases hi : i = 0
      · simp [startOf, hi]
      · simp [startOf, hi]
  · right
    exact ⟨c1, c2⟩

/-- C3: when `FuzzyMatch` on a non-empty pattern returns a pair `(start, end)` other
than `(-1, -1)`, there are strictly increasing haystack positions, one per pattern
character, that carry the lowered pattern characters in order; the first of them is
`start`, the last is `end - 1`, and `0 <= start <= end <= len(h)`.  Hence, when the
lowered pattern is not a subsequence of the lowered haystack, the result is `(-1, -1)`,
as on haystack "abc" with pattern "xyz". -/
theorem fuzzyMatch_match_is_ordered_subsequence (cs fwd : Bool) (h p : List Int)
    (hp : p ≠ []) :
    (∀ start stop : Int, FuzzyMatch cs fwd h p = .ok (start, stop) →
        (start, stop) ≠ (-1, -1) →
        ∃ idx : List Nat, idx.length = p.length ∧ idx.Pairwise (· < ·) ∧
          (∀ k, k < p.length →
            idx.getD k 0 < h.length ∧
            ToLower (h.getD (idx.getD k 0) 0) = ToLower (p.getD k 0)) ∧
          ((idx.getD 0 0 : Nat) : Int) = start ∧
          ((idx.getD (p.length - 1) 0 : Nat) : Int) = stop - 1 ∧
          0 ≤ start ∧ start ≤ stop ∧ stop ≤ (h.length : Int)) ∧
    (¬ List.Sublist (p.map ToLower) (h.map ToLower) →
        FuzzyMatch cs fwd h p = .ok (-1, -1)) ∧
    FuzzyMatch cs fwd (runesOf "abc") (runesOf "xyz") = .ok (-1, -1) := by
  rw [← and_assoc]
  refine ⟨?_, by cases cs <;> cases fwd <;> decide⟩
  rcases fuzzyMatch_spec cs fwd h p hp with ⟨idx, c1, c2⟩ | ⟨c1, c2⟩
  · have hlen := admissible_length h p idx 0 0 c1
    have hlen' : idx.length = p.length := by omega
    have hpos : 0 < p.length := List.length_pos.mpr hp
    have hne : idx ≠ [] := by
      intro he; rw [he] at hlen'; simp at hlen'; omega
    have hchars := admissible_chars h p idx 0 0 c1
    have hend := endOf_last idx 0 hne
    have hendb := endOf_bounds h p idx 0 0 (Nat.zero_le _) c1
    have hsorted := admissible_pairwise h p idx 0 0 c1
    refine ⟨?_, ?_⟩
    · intro start stop hres _
      rw [c2] at hres
      injection hres with hres
      have hs := congrArg Prod.fst hres
      have he := congrArg Prod.snd hres
      simp only at hs he
      have hfirst_le : idx.getD 0 0 ≤ idx.getD (idx.length - 1) 0 := by
        by_cases h1 : idx.length - 1 = 0
        · rw [h1]
        · have hlt : 0 < idx.length - 1 := by omega
          have := List.pairwise_iff_getElem.mp hsorted 0 (idx.length - 1) (by omega)
            (by omega) hlt
          rw [List.getD_eq_getElem _ _ (by omega : 0 < idx.length),
            List.getD_eq_getElem _ _ (by omega : idx.length - 1 < idx.length)]
          omega
      refine ⟨idx, hlen', hsorted, ?_, hs, ?_, ?_, ?_, ?_⟩
      · intro k hk
        have := hchars k (by omega)
        simpa using this
      · rw [← he, hend, hlen']; push_cast; omega
      · rw [← hs]; exact Int.natCast_nonneg _
      · rw [← hs, ← he, hend]; push_cast; omega
      · rw [← he]; exact_mod_cast hendb.2
    · intro hns
      have := admissible_sublist h p idx 0 0 c1
      simp only [List.drop_zero] at this
      exact absurd this hns
  · refine ⟨?_, fun _ => c2⟩
    intro start stop hres hne
    rw [c2] at hres
    injection hres with hres
    exact absurd hres.symm hne

/-- Witness for C3: "hw" in "hello_world" is matched at positions 0 and 6. -/
theorem fuzzyMatch_match_is_ordered_subsequence_witness :
    ∃ idx : List Nat, idx.length = (runesOf "hw").length ∧ idx.Pairwise (· < ·) ∧
      (∀ k, k < (runesOf "hw").length →
        idx.getD k 0 < (runesOf "hello_world").length ∧
        ToLower ((runesOf "hello_world").getD (idx.getD k 0) 0)
          = ToLower ((runesOf "hw").getD k 0)) ∧
      ((idx.getD 0 0 : Nat) : Int) = 0 ∧
      ((idx.getD ((runesOf "hw").length - 1) 0 : Nat) : Int) = 7 - 1 ∧
      (0 : Int) ≤ 0 ∧ (0 : Int) ≤ 7 ∧ (7 : Int) ≤ ((runesOf "hello_world").length : Int) :=
  (fuzzyMatch_match_is_ordered_subsequence true true (runesOf "hello_world") (runesOf "hw")
    (by decide)).1 0 7 (by decide) (by decide)

/-- Counterexample to C4: "ac" is a subsequence of "abc", yet `FuzzyMatch` reports no
match, for the `c` neither follows the matched `a` directly nor starts a word. -/
theorem fuzzyMatch_subsequence_without_match :
    List.Sublist ((runesOf "ac").map ToLower) ((runesOf "abc").map ToLower) ∧
    FuzzyMatch true true (runesOf "abc") (runesOf "ac") = .ok (-1, -1) := by
  decide

/-- C4, amended: when the lowered pattern can be laid over the lowered haystack along
positions each of which is either the position right after the previous one (position
0 for the first) or a later position that passes clause (b), (c) or (d) of the
acceptance test, `FuzzyMatch` returns a match. -/
theorem fuzzyMatch_matches_admissible (cs fwd : Bool) (h p : List Int) (idx : List Nat)
    (hadm : admissible h p 0 0 idx) :
    ∃ start stop : Int, FuzzyMatch cs fwd h p = .ok (start, stop) ∧
      (start, stop) ≠ (-1, -1) := by
  by_cases hp : p = []
  · subst hp
    refine ⟨0, 0, by simp [FuzzyMatch], by decide⟩
  · rcases fuzzyMatch_spec cs fwd h p hp with ⟨idx', _, c2⟩ | ⟨c1, _⟩
    · refine ⟨_, _, c2, ?_⟩
      intro he
      have := congrArg Prod.fst he
      simp only at this
      omega
    · exact absurd hadm (c1 idx)

/-- Witness for the amended C4: "hw" lies over "hello_world" at position 0 and at
position 6, the start of a word after the separator. -/
theorem fuzzyMatch_matches_admissible_witness :
    ∃ start stop : Int,
      FuzzyMatch true true (runesOf "hello_world") (runesOf "hw") = .ok (start, stop) ∧
      (start, stop) ≠ (-1, -1) :=
  fuzzyMatch_matches_admissible true true (runesOf "hello_world") (runesOf "hw") [0, 6]
    (by decide)

/-- C5, as the code behaves: on "FuzzyFinder" with pattern "ff" `FuzzyMatch` reports
no match under every flag combination, because the acceptance test is applied to
the lowered characters, of which none is uppercase. -/
theorem fuzzyMatch_fuzzyFinder_no_match :
    ∀ cs fwd : Bool,
      FuzzyMatch cs fwd (runesOf "FuzzyFinder") (runesOf "ff") = .ok (-1, -1) := by
  decide

theorem rangeLoop_spec (U : Unicode) (cs : Bool) (runes : List Int) (d : Nat) :
    ∀ (rest : List Int) (i : Nat), i + d + rest.length ≤ runes.length →
      ∃ b : Bool, rangeLoop U cs runes (d : Int) rest (i : Int) = .ok b ∧
        (b = true ↔
          ∀ k, k < rest.length → foldWith U cs (runes.getD (i + d + k) 0) = rest.getD k 0) := by
  intro rest
  induction rest with
  | nil =>
    intro i _
    exact ⟨true, rfl, by simp⟩
  | cons r rest ih =>
    intro i hi
    simp only [List.length_cons] at hi
    have hidx : index runes ((i : Int) + (d : Int)) = .ok (runes.getD (i + d) 0) := by
      have : ((i : Int) + (d : Int)) = ((i + d : Nat) : Int) := by push_cast; rfl
      rw [this]
      exact index_nat runes (i + d) (by omega)
    have hnext : ((i : Int) + 1) = ((i + 1 : Nat) : Int) := by push_cast; rfl
    unfold rangeLoop
    simp only [hidx]
    by_cases hc : foldWith U cs (runes.getD (i + d) 0) = r
    · obtain ⟨b, hb1, hb2⟩ := ih (i + 1) (by omega)
      refine ⟨b, ?_, ?_⟩
      · have hc' : (if !cs then U.toLower (runes.getD (i + d) 0) else runes.getD (i + d) 0) = r := hc
        simp only [hc', ne_eq, not_true_eq_false, if_false, hnext]
        exact hb1
      · rw [hb2]
        constructor
        · intro hall k hk
          cases k with
          | zero => simpa using hc
          | succ k =>
            have := hall k (by simp only [List.length_cons] at hk; omega)
            have e : i + d + (k + 1) = i + 1 + d + k := by omega
            rw [e]
            simpa using this
        · intro hall k hk
          have := hall (k + 1) (by simp only [List.length_cons]; omega)
          have e : i + d + (k + 1) = i + 1 + d + k := by omega
          rw [e] at this
          simpa using this
    · refine ⟨false, ?_, ?_⟩
      · have hc' : ¬ ((if !cs then U.toLower (runes.getD (i + d) 0) else runes.getD (i + d) 0) = r) := hc
        simp only [hc', ne_eq, not_false_eq_true, if_true]
      · constructor
        · intro hf; exact absurd hf (by decide)
        · intro hall
          have := hall 0 (by simp)
          exact absurd (by simpa using this) hc

theorem prefixMatch_spec (U : Unicode) (cs fwd : Bool) (h p : List Int) :
    ((p.length ≤ h.length ∧ ∀ k, k < p.length → foldWith U cs (h.getD k 0) = p.getD k 0) →
        PrefixMatch U cs fwd h p = .ok (0, (p.length : Int))) ∧
    (¬ (p.length ≤ h.length ∧ ∀ k, k < p.length → foldWith U cs (h.getD k 0) = p.getD k 0) →
        PrefixMatch U cs fwd h p = .ok (-1, -1)) := by
  unfold PrefixMatch
  by_cases hlen : h.length < p.length
  · simp only [hlen, if_true]
    refine ⟨fun hc => ?_, fun _ => trivial⟩
    have := hc.1
    omega
  · simp only [hlen, if_false]
    obtain ⟨b, hb1, hb2⟩ := rangeLoop_spec U cs h 0 p 0 (by omega)
    simp only [Nat.cast_zero, Nat.zero_add, Nat.add_zero] at hb1 hb2
    rw [hb1]
    cases b with
    | true =>
      have hall := hb2.mp rfl
      refine ⟨fun _ => rfl, fun hn => ?_⟩
      exact absurd ⟨by omega, hall⟩ hn
    | false =>
      refine ⟨fun hc => ?_, fun _ => rfl⟩
      have := hb2.mpr hc.2
      exact absurd this (by decide)

theorem suffixMatch_spec (U : Unicode) (trim : List Int → List Int) (cs fwd : Bool)
    (h p : List Int) :
    ((p.length ≤ (trim h).length ∧ ∀ k, k < p.length →
          foldWith U cs ((trim h).getD ((trim h).length - p.length + k) 0) = p.getD k 0) →
        SuffixMatch U trim cs fwd h p
          = .ok (((trim h).length : Int) - (p.length : Int), ((trim h).length : Int))) ∧
    (¬ (p.length ≤ (trim h).length ∧ ∀ k, k < p.length →
          foldWith U cs ((trim h).getD ((trim h).length - p.length + k) 0) = p.getD k 0) →
        SuffixMatch U trim cs fwd h p = .ok (-1, -1)) := by
  unfold SuffixMatch
  by_cases hlen : ((trim h).length : Int) - (p.length : Int) < 0
  · simp only [hlen, if_true]
    refine ⟨fun hc => ?_, fun _ => trivial⟩
    have := hc.1
    omega
  · simp only [hlen, if_false]
    have hd : ((trim h).length : Int) - (p.length : Int)
        = (((trim h).length - p.length : Nat) : Int) := by omega
    obtain ⟨b, hb1, hb2⟩ :=
      rangeLoop_spec U cs (trim h) ((trim h).length - p.length) p 0 (by omega)
    simp only [Nat.cast_zero, Nat.zero_add] at hb1 hb2
    rw [hd, hb1]
    cases b with
    | true =>
      have hall := hb2.mp rfl
      refine ⟨fun _ => rfl, fun hn => ?_⟩
      exact absurd ⟨by omega, hall⟩ hn
    | false =>
      refine ⟨fun hc => ?_, fun _ => rfl⟩
      have := hb2.mpr hc.2
      exact absurd this (by decide)

theorem validRune_nonneg (c : Int) (hc : validRune c = true) : 0 ≤ c := by
  unfold validRune at hc
  simp only [Bool.and_eq_true, decide_eq_true_eq] at hc
  exact hc.1.1

theorem goString_valid (l : List Int) (hl : ∀ c ∈ l, validRune c = true) : goString l = l := by
  unfold goString
  conv_rhs => rw [← List.map_id l]
  apply List.map_congr_left
  intro c hc
  simp [encodeRune, hl c hc]

theorem stringsToLower_valid (U : Unicode) (l : List Int)
    (hU : ∀ c, validRune c = true → validRune (U.toLower c) = true)
    (hl : ∀ c ∈ l, validRune c = true) : stringsToLower U l = l.map U.toLower := by
  unfold stringsToLower
  induction l with
  | nil => rfl
  | cons c rest ih =>
    have hv := hU c (hl c (List.mem_cons_self _ _))
    have hn : ¬ (U.toLower c < 0) := by
      have := validRune_nonneg _ hv
      omega
    rw [List.filterMap_cons]
    simp only [hn, if_false, List.map_cons]
    rw [ih (fun c hc => hl c (List.mem_cons_of_mem _ hc))]
    simp [encodeRune, hv]

theorem list_eq_iff_getD (l1 l2 : List Int) :
    l1 = l2 ↔ l1.length = l2.length ∧ ∀ k, k < l2.length → l1.getD k 0 = l2.getD k 0 := by
  constructor
  · intro h; subst h; exact ⟨rfl, fun _ _ => rfl⟩
  · rintro ⟨h1, h2⟩
    apply List.ext_getElem h1
    intro k hk1 hk2
    have := h2 k hk2
    rw [List.getD_eq_getElem _ _ hk1, List.getD_eq_getElem _ _ hk2] at this
    exact this

theorem getD_map_fold (U : Unicode) (cs : Bool) (h : List Int) (k : Nat) (hk : k < h.length) :
    (h.map (foldWith U cs)).getD k 0 = foldWith U cs (h.getD k 0) := by
  rw [List.getD_eq_getElem _ _ (by simpa using hk), List.getD_eq_getElem _ _ hk]
  simp

theorem equalMatch_spec (U : Unicode) (cs fwd : Bool) (h p : List Int)
    (hU : ∀ c, validRune c = true → validRune (U.toLower c) = true)
    (hh : ∀ c ∈ h, validRune c = true) (hp : ∀ c ∈ p, validRune c = true) :
    ((h.length = p.length ∧ ∀ k, k < p.length → foldWith U cs (h.getD k 0) = p.getD k 0) →
        EqualMatch U cs fwd h p = .ok (0, (p.length : Int))) ∧
    (¬ (h.length = p.length ∧ ∀ k, k < p.length → foldWith U cs (h.getD k 0) = p.getD k 0) →
        EqualMatch U cs fwd h p = .ok (-1, -1)) := by
  have hstr : (if !cs then stringsToLower U (goString h) else goString h)
      = h.map (foldWith U cs) := by
    rw [goString_valid h hh]
    cases cs
    · simp only [Bool.not_false, if_true]
      rw [stringsToLower_valid U h hU hh]
      apply List.map_congr_left
      intro c _
      simp [foldWith]
    · simp only [Bool.not_true, Bool.false_eq_true, if_false]
      conv_lhs => rw [← List.map_id h]
      apply List.map_congr_left
      intro c _
      simp [foldWith]
  unfold EqualMatch
  by_cases hlen : h.length = p.length
  · simp only [hlen, ne_eq, not_true_eq_false, if_false, hstr, goString_valid p hp]
    have hiff : h.map (foldWith U cs) = p ↔
        ∀ k, k < p.length → foldWith U cs (h.getD k 0) = p.getD k 0 := by
      rw [list_eq_iff_getD]
      constructor
      · rintro ⟨_, h2⟩ k hk
        rw [← getD_map_fold U cs h k (by omega)]
        exact h2 k hk
      · intro h2
        refine ⟨by simpa using hlen, ?_⟩
        intro k hk
        rw [getD_map_fold U cs h k (by omega)]
        exact h2 k hk
    by_cases hall : h.map (foldWith U cs) = p
    · simp only [hall, if_true]
      refine ⟨fun _ => trivial, fun hn => ?_⟩
      exact absurd ⟨trivial, hiff.mp hall⟩ hn
    · simp only [hall, if_false]
      refine ⟨fun hc => ?_, fun _ => trivial⟩
      exact absurd (hiff.mpr hc.2) hall
  · simp only [hlen, ne_eq, not_false_eq_true, if_true]
    refine ⟨fun hc => ?_, fun _ => trivial⟩
    exact hc.1.elim

theorem toLower_valid (c : Int) (hc : validRune c = true) : validRune (ToLower c) = true := by
  unfold ToLower
  by_cases h1 : 65 ≤ c ∧ c ≤ 90
  · rw [if_pos h1]
    unfold validRune
    simp only [Bool.and_eq_true, decide_eq_true_eq, Bool.not_eq_true', Bool.and_eq_false_imp,
      decide_eq_false_iff_not]
    omega
  · rw [if_neg h1]
    exact hc

theorem matches_ok_iff (s e : Int) : Matches (.ok (s, e)) ↔ (s, e) ≠ (-1, -1) := by
  unfold Matches
  constructor
  · rintro ⟨s', e', h1, h2⟩
    injection h1 with h1
    rw [h1]; exact h2
  · intro h
    exact ⟨s, e, rfl, h⟩

theorem zero_len_ne_sentinel (n : Nat) : ((0 : Int), (n : Int)) ≠ (-1, -1) := by
  intro h
  have := congrArg Prod.fst h
  simp at this

theorem trimRight_prefix (l : List Int) : TrimRight l <+: l := by
  induction l with
  | nil => exact List.prefix_refl _
  | cons c rest ih =>
    unfold TrimRight
    generalize TrimRight rest = t at ih
    cases t with
    | nil =>
      by_cases hc : c = 32 ∨ c = 9
      · simp only [hc, if_true]; exact List.nil_prefix
      · simp only [hc, if_false]
        exact ⟨rest, rfl⟩
    | cons a t' =>
      obtain ⟨u, hu⟩ := ih
      exact ⟨u, by simp [← hu]⟩

theorem foldWith_caseSensitive (U : Unicode) (c : Int) : foldWith U true c = c := by
  simp [foldWith]

theorem getD_drop (t : List Int) (d k : Nat) (hk : d + k < t.length) :
    (t.drop d).getD k 0 = t.getD (d + k) 0 := by
  rw [List.getD_eq_getElem _ _ (by simp; omega), List.getD_eq_getElem _ _ hk]
  simp

theorem getD_take (h : List Int) (n k : Nat) (hk : k < n) (hn : n ≤ h.length) :
    (h.take n).getD k 0 = h.getD k 0 := by
  rw [List.getD_eq_getElem _ _ (by simp; omega), List.getD_eq_getElem _ _ (by omega)]
  simp

theorem fuzzyMatch_spanInRange (cs fwd : Bool) (h p : List Int) :
    spanInRange h (FuzzyMatch cs fwd h p) := by
  by_cases hp : p = []
  · subst hp
    exact ⟨0, 0, by simp [FuzzyMatch], Or.inr ⟨le_refl _, le_refl _, Int.natCast_nonneg _⟩⟩
  · rcases fuzzyMatch_spec cs fwd h p hp with ⟨idx, c1, c2⟩ | ⟨_, c2⟩
    · refine ⟨_, _, c2, Or.inr ?_⟩
      cases idx with
      | nil =>
        simp only [List.getD_nil, endOf, Nat.cast_zero]
        exact ⟨le_refl _, le_refl _, Int.natCast_nonneg _⟩
      | cons i rest =>
        have hb := endOf_bounds h p rest (i + 1) 1 (by have := c1.2.1; omega) c1.2.2.2.2.2
        simp only [List.getD_cons_zero, endOf]
        refine ⟨Int.natCast_nonneg _, ?_, ?_⟩
        · exact_mod_cast (by omega : i ≤ endOf (i + 1) rest)
        · exact_mod_cast hb.2
    · exact ⟨_, _, c2, Or.inl rfl⟩

theorem exactMatchNaive_spanInRange (U : Unicode) (cs fwd : Bool) (h p : List Int) :
    spanInRange h (ExactMatchNaive U cs fwd h p) := by
  by_cases hp : p = []
  · subst hp
    exact ⟨0, 0, by simp [ExactMatchNaive], Or.inr ⟨le_refl _, le_refl _, Int.natCast_nonneg _⟩⟩
  · rcases exactMatchNaive_core U cs fwd h p hp with ⟨s, c1, _, c3⟩ | ⟨_, c2⟩
    · have hb := c1.1
      cases fwd
      · refine ⟨_, _, c3, Or.inr ?_⟩
        omega
      · refine ⟨_, _, c3, Or.inr ?_⟩
        omega
    · exact ⟨_, _, c2, Or.inl rfl⟩

theorem prefixMatch_spanInRange (U : Unicode) (cs fwd : Bool) (h p : List Int) :
    spanInRange h (PrefixMatch U cs fwd h p) := by
  by_cases hc : p.length ≤ h.length ∧
      ∀ k, k < p.length → foldWith U cs (h.getD k 0) = p.getD k 0
  · refine ⟨_, _, (prefixMatch_spec U cs fwd h p).1 hc, Or.inr ?_⟩
    have := hc.1
    omega
  · exact ⟨_, _, (prefixMatch_spec U cs fwd h p).2 hc, Or.inl rfl⟩

theorem suffixMatch_spanInRange (U : Unicode) (trim : List Int → List Int)
    (htrim : ∀ l, trim l <+: l) (cs fwd : Bool) (h p : List Int) :
    spanInRange h (SuffixMatch U trim cs fwd h p) := by
  have hle : (trim h).length ≤ h.length := (htrim h).length_le
  by_cases hc : p.length ≤ (trim h).length ∧ ∀ k, k < p.length →
      foldWith U cs ((trim h).getD ((trim h).length - p.length + k) 0) = p.getD k 0
  · refine ⟨_, _, (suffixMatch_spec U trim cs fwd h p).1 hc, Or.inr ?_⟩
    have := hc.1
    omega
  · exact ⟨_, _, (suffixMatch_spec U trim cs fwd h p).2 hc, Or.inl rfl⟩

theorem equalMatch_spanInRange (U : Unicode) (cs fwd : Bool) (h p : List Int) :
    spanInRange h (EqualMatch U cs fwd h p) := by
  unfold EqualMatch
  by_cases hlen : h.length = p.length
  · simp only [hlen, ne_eq, not_true_eq_false, if_false]
    generalize (if (!cs) = true then stringsToLower U (goString h) else goString h) = str
    by_cases heq : str = goString p
    · rw [if_pos heq]
      refine ⟨_, _, rfl, Or.inr ?_⟩
      omega
    · rw [if_neg heq]
      exact ⟨_, _, rfl, Or.inl rfl⟩
  · simp only [hlen, ne_eq, not_false_eq_true, if_true]
    exact ⟨_, _, rfl, Or.inl rfl⟩

/-- Counterexample to C6: with the empty pattern `EqualMatch` reports no match on a
non-empty haystack, instead of returning `(0, 0)`. -/
theorem equalMatch_empty_pattern_no_match :
    EqualMatch asciiUnicode true true (runesOf "a") [] = .ok (-1, -1) ∧
    EqualMatch asciiUnicode true true (runesOf "a") [] ≠ .ok (0, 0) := by
  decide

/-- C6, amended: with the empty pattern, under every flag combination, `FuzzyMatch`,
`ExactMatchNaive` and `PrefixMatch` return `(0, 0)`; `SuffixMatch` returns `(t, t)`
where `t` is the length of the trimmed haystack; `EqualMatch` returns `(0, 0)` on the
empty haystack and `(-1, -1)` on any other. -/
theorem empty_pattern_results (U : Unicode) (trim : List Int → List Int)
    (cs fwd : Bool) (h : List Int) :
    FuzzyMatch cs fwd h [] = .ok (0, 0) ∧
    ExactMatchNaive U cs fwd h [] = .ok (0, 0) ∧
    PrefixMatch U cs fwd h [] = .ok (0, 0) ∧
    SuffixMatch U trim cs fwd h [] = .ok (((trim h).length : Int), ((trim h).length : Int)) ∧
    EqualMatch U cs fwd h [] = (if h = [] then .ok (0, 0) else .ok (-1, -1)) := by
  refine ⟨by simp [FuzzyMatch], by simp [ExactMatchNaive], ?_, ?_, ?_⟩
  · simp [PrefixMatch, rangeLoop]
  · simp [SuffixMatch, rangeLoop]
  · cases h with
    | nil => cases cs <;> simp [EqualMatch, goString, stringsToLower]
    | cons a rest => simp [EqualMatch]

/-- C7: under every flag combination the result of each of the five matchers is a
returned pair that is either `(-1, -1)` or satisfies `0 <= start <= end <= len(h)`;
for `SuffixMatch` provided `util.TrimRight` returns a prefix of its input. -/
theorem matchers_span_in_range (U : Unicode) (trim : List Int → List Int)
    (htrim : ∀ l, trim l <+: l) (cs fwd : Bool) (h p : List Int) :
    spanInRange h (FuzzyMatch cs fwd h p) ∧
    spanInRange h (ExactMatchNaive U cs fwd h p) ∧
    spanInRange h (PrefixMatch U cs fwd h p) ∧
    spanInRange h (SuffixMatch U trim cs fwd h p) ∧
    spanInRange h (EqualMatch U cs fwd h p) :=
  ⟨fuzzyMatch_spanInRange cs fwd h p, exactMatchNaive_spanInRange U cs fwd h p,
    prefixMatch_spanInRange U cs fwd h p, suffixMatch_spanInRange U trim htrim cs fwd h p,
    equalMatch_spanInRange U cs fwd h p⟩

/-- Witness for C7: the five matchers on "trailing text   " and "text". -/
theorem matchers_span_in_range_witness :
    spanInRange (runesOf "trailing text   ")
      (FuzzyMatch true true (runesOf "trailing text   ") (runesOf "text")) ∧
    spanInRange (runesOf "trailing text   ")
      (ExactMatchNaive asciiUnicode true true (runesOf "trailing text   ") (runesOf "text")) ∧
    spanInRange (runesOf "trailing text   ")
      (PrefixMatch asciiUnicode true true (runesOf "trailing text   ") (runesOf "text")) ∧
    spanInRange (runesOf "trailing text   ")
      (SuffixMatch asciiUnicode TrimRight true true (runesOf "trailing text   ")
        (runesOf "text")) ∧
    spanInRange (runesOf "trailing text   ")
      (EqualMatch asciiUnicode true true (runesOf "trailing text   ") (runesOf "text")) :=
  matchers_span_in_range asciiUnicode TrimRight trimRight_prefix true true
    (runesOf "trailing text   ") (runesOf "text")

/-- Counterexample to C8: the lone surrogate U+D800 is not the rune U+FFFD, so
`PrefixMatch` reports no match, but both are converted to the same string, so
`EqualMatch` on the haystack slice `h[0:len(p)]` matches. -/
theorem prefixMatch_differs_from_equalMatch :
    PrefixMatch asciiUnicode true true [55296] [65533] = .ok (-1, -1) ∧
    EqualMatch asciiUnicode true true (([55296] : List Int).take 1) [65533] = .ok (0, 1) := by
  decide

/-- C8, amended: for a haystack and a pattern made of Unicode scalar values (runes that
have a UTF-8 encoding), `unicode.ToLower` mapping scalar values to scalar values, and
`len(p) <= len(h)`: `PrefixMatch` matches exactly when `EqualMatch` matches on the
haystack slice `h[0:len(p)]`; a matching `PrefixMatch` returns `(0, len(p))` and any
other returns `(-1, -1)`. -/
theorem prefixMatch_iff_equalMatch_take (U : Unicode) (cs fwd fwd' : Bool) (h p : List Int)
    (hU : ∀ c, validRune c = true → validRune (U.toLower c) = true)
    (hh : ∀ c ∈ h, validRune c = true) (hp : ∀ c ∈ p, validRune c = true)
    (hlen : p.length ≤ h.length) :
    (Matches (PrefixMatch U cs fwd h p) ↔
        Matches (EqualMatch U cs fwd' (h.take p.length) p)) ∧
    (Matches (PrefixMatch U cs fwd h p) →
        PrefixMatch U cs fwd h p = .ok (0, (p.length : Int))) ∧
    (¬ Matches (PrefixMatch U cs fwd h p) → PrefixMatch U cs fwd h p = .ok (-1, -1)) := by
  have htake : ∀ c ∈ h.take p.length, validRune c = true :=
    fun c hc => hh c (List.mem_of_mem_take hc)
  have hlt : (h.take p.length).length = p.length := by simp; omega
  have hps := prefixMatch_spec U cs fwd h p
  have hes := equalMatch_spec U cs fwd' (h.take p.length) p hU htake hp
  by_cases hc : ∀ k, k < p.length → foldWith U cs (h.getD k 0) = p.getD k 0
  · have hc' : ∀ k, k < p.length → foldWith U cs ((h.take p.length).getD k 0) = p.getD k 0 := by
      intro k hk
      rw [getD_take h p.length k hk hlen]
      exact hc k hk
    have h1 := hps.1 ⟨hlen, hc⟩
    have h2 := hes.1 ⟨hlt, hc'⟩
    rw [h1, h2]
    have hm : Matches (.ok (0, (p.length : Int))) :=
      (matches_ok_iff _ _).mpr (zero_len_ne_sentinel _)
    exact ⟨⟨fun _ => hm, fun _ => hm⟩, fun _ => rfl, fun hn => absurd hm hn⟩
  · have hc' : ¬ ∀ k, k < p.length →
        foldWith U cs ((h.take p.length).getD k 0) = p.getD k 0 := by
      intro hall
      apply hc
      intro k hk
      rw [← getD_take h p.length k hk hlen]
      exact hall k hk
    have h1 := hps.2 (fun hx => hc hx.2)
    have h2 := hes.2 (fun hx => hc' hx.2)
    rw [h1, h2]
    have hm : ¬ Matches (.ok (-1, -1)) := by
      rw [matches_ok_iff]; exact fun hx => hx rfl
    exact ⟨⟨fun hx => absurd hx hm, fun hx => absurd hx hm⟩, fun hx => absurd hx hm, fun _ => rfl⟩

/-- Witness for the amended C8: "foo" is a prefix of "fooBar". -/
theorem prefixMatch_iff_equalMatch_take_witness :
    (Matches (PrefixMatch asciiUnicode false true (runesOf "fooBar") (runesOf "foo")) ↔
        Matches (EqualMatch asciiUnicode false true
          ((runesOf "fooBar").take (runesOf "foo").length) (runesOf "foo"))) ∧
    (Matches (PrefixMatch asciiUnicode false true (runesOf "fooBar") (runesOf "foo")) →
        PrefixMatch asciiUnicode false true (runesOf "fooBar") (runesOf "foo")
          = .ok (0, ((runesOf "foo").length : Int))) ∧
    (¬ Matches (PrefixMatch asciiUnicode false true (runesOf "fooBar") (runesOf "foo")) →
        PrefixMatch asciiUnicode false true (runesOf "fooBar") (runesOf "foo")
          = .ok (-1, -1)) :=
  prefixMatch_iff_equalMatch_take asciiUnicode false true true (runesOf "fooBar")
    (runesOf "foo") toLower_valid (by decide) (by decide) (by decide)

/-- C9: with `t = util.TrimRight(h)`, the case-sensitive `SuffixMatch` matches exactly
when `len(p) <= len(t)` and `p` equals the final `len(p)` runes of `t`, and a match is
`(len(t) - len(p), len(t))`; on "trailing text   " with pattern "text" it is `(9, 13)`. -/
theorem suffixMatch_caseSensitive_final_runes (U : Unicode) (trim : List Int → List Int)
    (fwd : Bool) (h p : List Int) :
    (Matches (SuffixMatch U trim true fwd h p) ↔
        p.length ≤ (trim h).length ∧ (trim h).drop ((trim h).length - p.length) = p) ∧
    (Matches (SuffixMatch U trim true fwd h p) →
        SuffixMatch U trim true fwd h p
          = .ok (((trim h).length : Int) - (p.length : Int), ((trim h).length : Int))) ∧
    SuffixMatch asciiUnicode TrimRight true fwd (runesOf "trailing text   ") (runesOf "text")
      = .ok (9, 13) := by
  have hss := suffixMatch_spec U trim true fwd h p
  have hcond : (p.length ≤ (trim h).length ∧ ∀ k, k < p.length →
        foldWith U true ((trim h).getD ((trim h).length - p.length + k) 0) = p.getD k 0) ↔
      (p.length ≤ (trim h).length ∧ (trim h).drop ((trim h).length - p.length) = p) := by
    constructor
    · rintro ⟨h1, h2⟩
      refine ⟨h1, ?_⟩
      rw [list_eq_iff_getD]
      refine ⟨by simp; omega, ?_⟩
      intro k hk
      rw [getD_drop _ _ _ (by omega)]
      have := h2 k hk
      rw [foldWith_caseSensitive] at this
      exact this
    · rintro ⟨h1, h2⟩
      refine ⟨h1, ?_⟩
      intro k hk
      rw [foldWith_caseSensitive, ← getD_drop _ _ _ (by omega), h2]
  refine ⟨?_, ?_, by cases fwd <;> decide⟩
  · by_cases hc : p.length ≤ (trim h).length ∧ ∀ k, k < p.length →
        foldWith U true ((trim h).getD ((trim h).length - p.length + k) 0) = p.getD k 0
    · rw [hss.1 hc, matches_ok_iff]
      constructor
      · intro _; exact hcond.mp hc
      · intro _ he
        have := congrArg Prod.snd he
        simp only at this
        omega
    · rw [hss.2 hc, matches_ok_iff]
      constructor
      · intro hx; exact absurd rfl hx
      · intro hx; exact absurd (hcond.mpr hx) hc
  · intro hm
    by_cases hc : p.length ≤ (trim h).length ∧ ∀ k, k < p.length →
        foldWith U true ((trim h).getD ((trim h).length - p.length + k) 0) = p.getD k 0
    · exact hss.1 hc
    · rw [hss.2 hc, matches_ok_iff] at hm
      exact absurd rfl hm

/-- Counterexample to C10: the rune 0x110000 is not a code point and differs from
U+FFFD, yet the case-sensitive `EqualMatch` returns `(0, len(p))`, for both runes are
converted to the same string. -/
theorem equalMatch_matches_distinct_runes :
    EqualMatch asciiUnicode true true [1114112] [65533] = .ok (0, 1) ∧
    ([1114112] : List Int).getD 0 0 ≠ ([65533] : List Int).getD 0 0 := by
  decide

/-- C10, amended: for a haystack and a pattern made of Unicode scalar values, and
`unicode.ToLower` mapping scalar values to scalar values, `EqualMatch` returns
`(0, len(p))` exactly when `len(h) = len(p)` and at every index `h[k] = p[k]` (case
sensitive) respectively `lower(h[k]) = p[k]` (case insensitive); in every other case
it returns `(-1, -1)`. -/
theorem equalMatch_iff_pointwise (U : Unicode) (cs fwd : Bool) (h p : List Int)
    (hU : ∀ c, validRune c = true → validRune (U.toLower c) = true)
    (hh : ∀ c ∈ h, validRune c = true) (hp : ∀ c ∈ p, validRune c = true) :
    (EqualMatch U cs fwd h p = .ok (0, (p.length : Int)) ↔
        h.length = p.length ∧
        ∀ k, k < p.length →
          (if cs then h.getD k 0 else U.toLower (h.getD k 0)) = p.getD k 0) ∧
    (EqualMatch U cs fwd h p ≠ .ok (0, (p.length : Int)) →
        EqualMatch U cs fwd h p = .ok (-1, -1)) := by
  have hes := equalMatch_spec U cs fwd h p hU hh hp
  have hfold : ∀ c, foldWith U cs c = (if cs then c else U.toLower c) := by
    intro c; cases cs <;> simp [foldWith]
  simp only [hfold] at hes
  by_cases hc : h.length = p.length ∧
      ∀ k, k < p.length → (if cs then h.getD k 0 else U.toLower (h.getD k 0)) = p.getD k 0
  · have h1 := hes.1 hc
    exact ⟨⟨fun _ => hc, fun _ => h1⟩, fun hn => absurd h1 hn⟩
  · have h2 := hes.2 hc
    refine ⟨⟨fun hx => ?_, fun hx => absurd hx hc⟩, fun _ => h2⟩
    rw [h2] at hx
    injection hx with hx
    exact absurd hx.symm (zero_len_ne_sentinel _)

/-- Witness for the amended C10: "Foo" equals "foo" when case is ignored. -/
theorem equalMatch_iff_pointwise_witness :
    (EqualMatch asciiUnicode false true (runesOf "Foo") (runesOf "foo")
        = .ok (0, ((runesOf "foo").length : Int)) ↔
        (runesOf "Foo").length = (runesOf "foo").length ∧
        ∀ k, k < (runesOf "foo").length →
          (if false then (runesOf "Foo").getD k 0
            else asciiUnicode.toLower ((runesOf "Foo").getD k 0)) = (runesOf "foo").getD k 0) ∧
    (EqualMatch asciiUnicode false true (runesOf "Foo") (runesOf "foo")
        ≠ .ok (0, ((runesOf "foo").length : Int)) →
        EqualMatch asciiUnicode false true (runesOf "Foo") (runesOf "foo") = .ok (-1, -1)) :=
  equalMatch_iff_pointwise asciiUnicode false true (runesOf "Foo") (runesOf "foo")
    toLower_valid (by decide) (by decide)

theorem admissible_room (h pat : List Int) :
    ∀ (idx : List Nat) (r p : Nat), r ≤ h.length → admissible h pat r p idx →
      r + idx.length ≤ h.length := by
  intro idx
  induction idx with
  | nil => intro r p hr _; simpa using hr
  | cons i rest ih =>
    intro r p _ hadm
    have h1 := hadm.1
    have h2 := hadm.2.1
    have := ih (i + 1) (p + 1) (by omega) hadm.2.2.2.2.2
    simp only [List.length_cons]
    omega

theorem index_map (f : Int → Int) (l : List Int) (i : Int) :
    index (l.map f) i = (match index l i with
      | .ok c => .ok (f c)
      | .error e => .error e) := by
  unfold index
  simp only [List.length_map]
  by_cases hi : 0 ≤ i ∧ i < (l.length : Int)
  · simp only [hi, and_self, if_true]
    have hlt : i.toNat < l.length := by omega
    rw [List.getD_eq_getElem _ _ (by simpa using hlt), List.getD_eq_getElem _ _ hlt]
    simp
  · simp only [hi, if_false]

theorem runeAt_map (f : Int → Int) (l : List Int) (i m : Int) (fwd : Bool) :
    runeAt (l.map f) i m fwd = (match runeAt l i m fwd with
      | .ok c => .ok (f c)
      | .error e => .error e) := by
  unfold runeAt
  cases fwd
  · simp only [Bool.false_eq_true, if_false]; exact index_map f l _
  · simp only [if_true]; exact index_map f l _

theorem toLower_idem (c : Int) : ToLower (ToLower c) = ToLower c := by
  unfold ToLower
  by_cases hc : 65 ≤ c ∧ c ≤ 90
  · rw [if_pos hc]
    have : ¬ (65 ≤ c + 32 ∧ c + 32 ≤ 90) := by omega
    rw [if_neg this]
  · rw [if_neg hc, if_neg hc]

theorem exactLoop_fold (U : Unicode) (fwd : Bool) (h p : List Int) :
    ∀ (fuel : Nat) (i j : Int),
      exactLoop U false fwd h p fuel i j
        = exactLoop U true fwd (h.map (exactFold U false)) p fuel i j := by
  intro fuel
  induction fuel with
  | zero => intro i j; rfl
  | succ fuel ih =>
    intro i j
    unfold exactLoop
    simp only [List.length_map, runeAt_map, exactFold_caseSensitive]
    by_cases hi : i < (h.length : Int)
    · simp only [hi, if_true]
      cases hc : runeAt h i (h.length : Int) fwd with
      | error e => rfl
      | ok c =>
        simp only
        cases hq : runeAt p j (p.length : Int) fwd with
        | error e => rfl
        | ok pc =>
          simp only [ih]
    · simp only [hi, if_false]

theorem fuzzyMatchHelper_map_pat (h pat : List Int) :
    ∀ (fuel : Nat) (r q : Int),
      FuzzyMatchHelper h (pat.map ToLower) fuel r q = FuzzyMatchHelper h pat fuel r q := by
  intro fuel
  induction fuel with
  | zero => intro r q; rfl
  | succ fuel ih =>
    intro r q
    have hrec : (fun i => FuzzyMatchHelper h (pat.map ToLower) fuel i (q + 1))
        = (fun i => FuzzyMatchHelper h pat fuel i (q + 1)) := by
      funext i; exact ih i (q + 1)
    unfold FuzzyMatchHelper
    simp only [List.length_map, index_map, hrec, ih]
    by_cases hq : q = (pat.length : Int)
    · simp only [hq, if_true]
    · simp only [hq, if_false]
      by_cases hr : r = (h.length : Int)
      · simp only [hr, if_true]
      · simp only [hr, if_false]
        cases hc : index pat q with
        | error e => rfl
        | ok pc => simp only [toLower_idem]

theorem fuzzyScan_map_hay (h : List Int) (p_ch : Int) (rec : Int → Result) :
    ∀ (n : Nat) (i : Int),
      fuzzyScan (h.map ToLower) p_ch rec n i = fuzzyScan h p_ch rec n i := by
  intro n
  induction n with
  | zero => intro i; rfl
  | succ n ih =>
    intro i
    unfold fuzzyScan
    simp only [index_map, ih]
    cases hc : index h i with
    | error e => rfl
    | ok ci =>
      simp only
      cases hp : index h (i - 1) with
      | error e => rfl
      | ok pi => simp only [toLower_idem]

theorem fuzzyMatchHelper_map_hay (h pat : List Int) :
    ∀ (fuel : Nat) (r q : Int),
      FuzzyMatchHelper (h.map ToLower) pat fuel r q = FuzzyMatchHelper h pat fuel r q := by
  intro fuel
  induction fuel with
  | zero => intro r q; rfl
  | succ fuel ih =>
    intro r q
    have hrec : (fun i => FuzzyMatchHelper (h.map ToLower) pat fuel i (q + 1))
        = (fun i => FuzzyMatchHelper h pat fuel i (q + 1)) := by
      funext i; exact ih i (q + 1)
    unfold FuzzyMatchHelper
    simp only [List.length_map, index_map, hrec, ih, fuzzyScan_map_hay]
    by_cases hq : q = (pat.length : Int)
    · simp only [hq, if_true]
    · simp only [hq, if_false]
      by_cases hr : r = (h.length : Int)
      · simp only [hr, if_true]
      · simp only [hr, if_false]
        cases hc : index pat q with
        | error e => rfl
        | ok pc =>
          simp only
          cases hd : index h r with
          | error e => rfl
          | ok rc => simp only [toLower_idem]

theorem toLower_of_isLower (c : Int) (hc : IsLower c = true) : ToLower c = c := by
  unfold IsLower at hc
  simp only [Bool.and_eq_true, decide_eq_true_eq] at hc
  unfold ToLower
  have : ¬ (65 ≤ c ∧ c ≤ 90) := by omega
  rw [if_neg this]

theorem toLower_of_not_isLetter (c : Int) (hc : IsLetter c = false) : ToLower c = c := by
  unfold IsLetter IsUpper at hc
  simp only [Bool.or_eq_false_iff, Bool.and_eq_false_imp, decide_eq_true_eq,
    decide_eq_false_iff_not] at hc
  unfold ToLower
  have : ¬ (65 ≤ c ∧ c ≤ 90) := fun hx => hc.2 hx.1 hx.2
  rw [if_neg this]

theorem fuzzyMatchHelper_diagonal (h p : List Int) (hlen : p.length ≤ h.length)
    (hch : ∀ k, k < p.length → ToLower (h.getD k 0) = ToLower (p.getD k 0)) :
    ∀ (fuel k : Nat), k ≤ p.length → p.length - k < fuel →
      FuzzyMatchHelper h p fuel (k : Int) (k : Int) = .ok ((k : Int), (p.length : Int)) := by
  intro fuel
  induction fuel with
  | zero => intro k _ hf; omega
  | succ fuel ih =>
    intro k hk hf
    unfold FuzzyMatchHelper
    by_cases hkn : k = p.length
    · simp [hkn]
    · have hkn' : ¬ ((k : Int) = (p.length : Int)) := by
        intro hx; exact hkn (by exact_mod_cast hx)
      have hkh : ¬ ((k : Int) = (h.length : Int)) := by
        intro hx
        have : k = h.length := by exact_mod_cast hx
        omega
      have hk1 : ((k : Int) + 1) = ((k + 1 : Nat) : Int) := by push_cast; rfl
      simp only [hkn', hkh, if_false, index_nat p k (by omega), index_nat h k (by omega),
        hch k (by omega), if_true, hk1, ih (k + 1) (by omega) (by omega)]
      simp

theorem runeAt_nat (runes : List Int) (i : Nat) (hi : i < runes.length) (fwd : Bool) :
    ∃ c, runeAt runes (i : Int) (runes.length : Int) fwd = .ok c := by
  cases fwd
  · exact ⟨_, runeAt_backward runes i hi⟩
  · exact ⟨_, runeAt_forward runes i hi⟩

theorem exactLoop_total (U : Unicode) (cs fwd : Bool) (runes pattern : List Int) :
    ∀ (fuel i j : Nat), j < pattern.length → j ≤ i → i ≤ runes.length →
      (runes.length - (i - j)) * (pattern.length + 1) + (pattern.length - j) < fuel →
      ∃ s e : Int, exactLoop U cs fwd runes pattern fuel (i : Int) (j : Int) = .ok (s, e) := by
  intro fuel
  induction fuel with
  | zero => intro i j _ _ _ hf; omega
  | succ fuel ih =>
    intro i j hj hji hi hf
    unfold exactLoop
    by_cases hlt : i < runes.length
    · have hlt' : (i : Int) < (runes.length : Int) := by exact_mod_cast hlt
      obtain ⟨c, hc⟩ := runeAt_nat runes i hlt fwd
      obtain ⟨pc, hpc⟩ := runeAt_nat pattern j hj fwd
      simp only [hlt', if_true, hc, hpc]
      by_cases heq : pc = exactFold U cs c
      · simp only [heq, if_true]
        by_cases hlast : (j : Int) + 1 = (pattern.length : Int)
        · simp only [hlast, if_true]
          cases fwd
          · exact ⟨_, _, rfl⟩
          · exact ⟨_, _, rfl⟩
        · simp only [hlast, if_false]
          have hcast : ((i : Int) + 1) = ((i + 1 : Nat) : Int) := by push_cast; rfl
          have hcast2 : ((j : Int) + 1) = ((j + 1 : Nat) : Int) := by push_cast; rfl
          rw [hcast, hcast2]
          have hs : i + 1 - (j + 1) = i - j := by omega
          exact ih (i + 1) (j + 1) (by omega) (by omega) (by omega) (by rw [hs]; omega)
      · simp only [heq, if_false]
        have hcast : ((i : Int) - (j : Int) + 1) = ((i - j + 1 : Nat) : Int) := by
          push_cast [Nat.cast_sub hji]; rfl
        have hcast0 : (0 : Int) = ((0 : Nat) : Int) := rfl
        rw [hcast, hcast0]
        apply ih (i - j + 1) 0 (by omega) (by omega) (by omega)
        have h1 : runes.length - (i - j) = (runes.length - (i - j + 1 - 0)) + 1 := by omega
        rw [h1, Nat.add_mul] at hf
        omega
    · have hlt' : ¬ ((i : Int) < (runes.length : Int)) := by
        intro hx; exact hlt (by exact_mod_cast hx)
      simp only [hlt', if_false]
      exact ⟨_, _, rfl⟩

theorem exactLoop_safe (U : Unicode) (cs fwd : Bool) (runes pattern : List Int) :
    ∀ (fuel i j : Nat), j < pattern.length → j ≤ i →
      exactLoop U cs fwd runes pattern fuel (i : Int) (j : Int) ≠ .error .indexOutOfRange := by
  intro fuel
  induction fuel with
  | zero =>
    intro i j _ _
    unfold exactLoop
    exact fun hx => by injection hx with hx; exact absurd hx (by decide)
  | succ fuel ih =>
    intro i j hj hji
    unfold exactLoop
    by_cases hlt : i < runes.length
    · have hlt' : (i : Int) < (runes.length : Int) := by exact_mod_cast hlt
      obtain ⟨c, hc⟩ := runeAt_nat runes i hlt fwd
      obtain ⟨pc, hpc⟩ := runeAt_nat pattern j hj fwd
      simp only [hlt', if_true, hc, hpc]
      by_cases heq : pc = exactFold U cs c
      · simp only [heq, if_true]
        by_cases hlast : (j : Int) + 1 = (pattern.length : Int)
        · simp only [hlast, if_true]
          cases fwd
          · exact fun hx => by injection hx
          · exact fun hx => by injection hx
        · simp only [hlast, if_false]
          have hlast' : j + 1 ≠ pattern.length := by
            intro hx; apply hlast; exact_mod_cast hx
          have hcast : ((i : Int) + 1) = ((i + 1 : Nat) : Int) := by push_cast; rfl
          have hcast2 : ((j : Int) + 1) = ((j + 1 : Nat) : Int) := by push_cast; rfl
          rw [hcast, hcast2]
          exact ih (i + 1) (j + 1) (by omega) (by omega)
      · simp only [heq, if_false]
        have hcast : ((i : Int) - (j : Int) + 1) = ((i - j + 1 : Nat) : Int) := by
          push_cast [Nat.cast_sub hji]; rfl
        have hcast0 : (0 : Int) = ((0 : Nat) : Int) := rfl
        rw [hcast, hcast0]
        exact ih (i - j + 1) 0 (by omega) (by omega)
    · have hlt' : ¬ ((i : Int) < (runes.length : Int)) := by
        intro hx; exact hlt (by exact_mod_cast hx)
      simp only [hlt', if_false]
      exact fun hx => by injection hx

theorem fuzzyScan_safe (h : List Int) (p_ch : Int) (rec : Int → Result)
    (hrec : ∀ i : Nat, i < h.length → rec ((i : Int) + 1) ≠ .error .indexOutOfRange) :
    ∀ (n i : Nat), 1 ≤ i → i + n ≤ h.length →
      fuzzyScan h p_ch rec n (i : Int) ≠ .error .indexOutOfRange := by
  intro n
  induction n with
  | zero =>
    intro i _ _
    unfold fuzzyScan
    exact fun hx => by injection hx
  | succ n ih =>
    intro i h1 hi
    have hil : i < h.length := by omega
    have hc : index h (i : Int) = .ok (h.getD i 0) := index_nat h i hil
    have hp : index h ((i : Int) - 1) = .ok (h.getD (i - 1) 0) := by
      have : ((i : Int) - 1) = ((i - 1 : Nat) : Int) := by omega
      rw [this]
      exact index_nat h (i - 1) (by omega)
    have hnext : ((i : Int) + 1) = ((i + 1 : Nat) : Int) := by push_cast; rfl
    have hih := ih (i + 1) (by omega) (by omega)
    rw [← hnext] at hih
    unfold fuzzyScan
    simp only [hc, hp]
    split
    · exact hih
    · split
      · have hr := hrec i hil
        cases hres : rec ((i : Int) + 1) with
        | error f =>
          simp only
          intro hx
          apply hr
          rw [hres, hx]
        | ok v =>
          obtain ⟨s, e⟩ := v
          simp only
          split
          · exact fun hx => by injection hx
          · exact hih
      · exact hih

theorem fuzzyMatchHelper_safe (h pat : List Int) :
    ∀ (fuel r q : Nat), r ≤ h.length → q ≤ pat.length →
      FuzzyMatchHelper h pat fuel (r : Int) (q : Int) ≠ .error .indexOutOfRange := by
  intro fuel
  induction fuel with
  | zero =>
    intro r q _ _
    unfold FuzzyMatchHelper
    exact fun hx => by injection hx with hx; exact absurd hx (by decide)
  | succ fuel ih =>
    intro r q hr hq
    unfold FuzzyMatchHelper
    by_cases hqe : q = pat.length
    · have : (q : Int) = (pat.length : Int) := by exact_mod_cast hqe
      simp only [this, if_true]
      exact fun hx => by injection hx
    have hqe' : ¬ ((q : Int) = (pat.length : Int)) := by
      intro hx; exact hqe (by exact_mod_cast hx)
    by_cases hre : r = h.length
    · have : (r : Int) = (h.length : Int) := by exact_mod_cast hre
      simp only [hqe', if_false, this, if_true]
      exact fun hx => by injection hx
    have hre' : ¬ ((r : Int) = (h.length : Int)) := by
      intro hx; exact hre (by exact_mod_cast hx)
    have hr1 : ((r : Int) + 1) = ((r + 1 : Nat) : Int) := by push_cast; rfl
    have hq1 : ((q : Int) + 1) = ((q + 1 : Nat) : Int) := by push_cast; rfl
    have hn : ((h.length : Int) - ((r + 1 : Nat) : Int)).toNat = h.length - (r + 1) := by omega
    have hscan := fuzzyScan_safe h (ToLower (pat.getD q 0))
      (fun i => FuzzyMatchHelper h pat fuel i ((q + 1 : Nat) : Int))
      (by
        intro i hi
        have hi1 : ((i : Int) + 1) = ((i + 1 : Nat) : Int) := by push_cast; rfl
        simp only [hi1]
        exact ih (i + 1) (q + 1) (by omega) (by omega))
      (h.length - (r + 1)) (r + 1) (by omega) (by omega)
    simp only [hqe', hre', if_false, index_nat pat q (by omega), index_nat h r (by omega),
      hr1, hq1, hn]
    split
    · have hd := ih (r + 1) (q + 1) (by omega) (by omega)
      cases hres : FuzzyMatchHelper h pat fuel ((r + 1 : Nat) : Int) ((q + 1 : Nat) : Int) with
      | error f =>
        simp only
        intro hx
        apply hd
        rw [hres, hx]
      | ok v =>
        obtain ⟨s, e⟩ := v
        simp only
        split
        · exact fun hx => by injection hx
        · exact hscan
    · exact hscan

theorem index_fault_iff (l : List Int) (i : Int) :
    index l i = .error .indexOutOfRange ↔ ¬ (0 ≤ i ∧ i < (l.length : Int)) := by
  unfold index
  by_cases hi : 0 ≤ i ∧ i < (l.length : Int)
  · simp only [hi, and_self, if_true, not_true_eq_false, iff_false]
    exact fun hx => by injection hx
  · simp only [hi, if_false, not_false_eq_true]

/-- C11: when the pattern is longer than the haystack, each of the five matchers
returns `(-1, -1)` under every flag combination (`util.TrimRight` returning a prefix
of its input). -/
theorem longer_pattern_never_matches (U : Unicode) (trim : List Int → List Int)
    (htrim : ∀ l, trim l <+: l) (cs fwd : Bool) (h p : List Int)
    (hlen : h.length < p.length) :
    FuzzyMatch cs fwd h p = .ok (-1, -1) ∧
    ExactMatchNaive U cs fwd h p = .ok (-1, -1) ∧
    PrefixMatch U cs fwd h p = .ok (-1, -1) ∧
    SuffixMatch U trim cs fwd h p = .ok (-1, -1) ∧
    EqualMatch U cs fwd h p = .ok (-1, -1) := by
  have hp : p ≠ [] := by
    intro he; rw [he] at hlen; simp at hlen
  have h0 : ¬ (p.length = 0) := by omega
  refine ⟨?_, ?_, ?_, ?_, ?_⟩
  · rcases fuzzyMatch_spec cs fwd h p hp with ⟨idx, c1, _⟩ | ⟨_, c2⟩
    · have h1 := admissible_length h p idx 0 0 c1
      have h2 := admissible_room h p idx 0 0 (Nat.zero_le _) c1
      omega
    · exact c2
  · unfold ExactMatchNaive
    simp only [h0, if_false, hlen, if_true]
  · unfold PrefixMatch
    simp only [hlen, if_true]
  · apply (suffixMatch_spec U trim cs fwd h p).2
    rintro ⟨h1, _⟩
    have := (htrim h).length_le
    omega
  · unfold EqualMatch
    have : h.length ≠ p.length := by omega
    simp only [this, ne_eq, not_false_eq_true, if_true]

/-- Witness for C11: the pattern "abcd" against the haystack "abc". -/
theorem longer_pattern_never_matches_witness :
    FuzzyMatch false true (runesOf "abc") (runesOf "abcd") = .ok (-1, -1) ∧
    ExactMatchNaive asciiUnicode false true (runesOf "abc") (runesOf "abcd") = .ok (-1, -1) ∧
    PrefixMatch asciiUnicode false true (runesOf "abc") (runesOf "abcd") = .ok (-1, -1) ∧
    SuffixMatch asciiUnicode TrimRight false true (runesOf "abc") (runesOf "abcd")
      = .ok (-1, -1) ∧
    EqualMatch asciiUnicode false true (runesOf "abc") (runesOf "abcd") = .ok (-1, -1) :=
  longer_pattern_never_matches asciiUnicode TrimRight trimRight_prefix false true
    (runesOf "abc") (runesOf "abcd") (by decide)

/-- C12: the case-insensitive `ExactMatchNaive` on `h` is the case-sensitive one on
the folded haystack, where folding maps `A`-`Z` to itself plus 32, a code point above
the ASCII range to its Unicode lowercase, and leaves any other code point unchanged;
on "Hello World" with pattern "world" the case-insensitive forward scan gives `(6, 11)`. -/
theorem exactMatchNaive_caseInsensitive_is_folded (U : Unicode) (fwd : Bool)
    (h p : List Int) :
    ExactMatchNaive U false fwd h p
      = ExactMatchNaive U true fwd
          (h.map (fun c => if 65 ≤ c ∧ c ≤ 90 then c + 32
            else if c > 127 then U.toLowerCase c else c)) p ∧
    ExactMatchNaive U false true (runesOf "Hello World") (runesOf "world") = .ok (6, 11) := by
  have hf : (fun c : Int => if 65 ≤ c ∧ c ≤ 90 then c + 32
      else if c > 127 then U.toLowerCase c else c) = exactFold U false := by
    funext c; simp [exactFold]
  refine ⟨?_, ?_⟩
  · rw [hf]
    unfold ExactMatchNaive
    simp only [List.length_map, exactLoop_fold]
  · rfl

/-- C13: `FuzzyMatch` ignores the `caseSensitive` (and the `forward`) flag, and
lowering every pattern character with `ToLower` does not change its result. -/
theorem fuzzyMatch_ignores_flags_and_pattern_case (cs cs' fwd fwd' : Bool)
    (h p : List Int) :
    FuzzyMatch cs fwd h p = FuzzyMatch cs' fwd' h p ∧
    FuzzyMatch cs fwd h (p.map ToLower) = FuzzyMatch cs fwd h p := by
  refine ⟨rfl, ?_⟩
  unfold FuzzyMatch
  simp only [List.length_map, fuzzyMatchHelper_map_pat]

/-- C19: `FuzzyMatch` gives the same result on the haystack and on the haystack with
every character lowered by `ToLower`; the acceptance test sees lowered characters only,
of which none is uppercase. -/
theorem fuzzyMatch_ignores_haystack_case (cs fwd cs' fwd' : Bool) (h p : List Int) :
    FuzzyMatch cs fwd h p = FuzzyMatch cs' fwd' (h.map ToLower) p ∧
    (∀ c : Int, IsUpper (ToLower c) = false) ∧
    (∀ c q : Int, boundaryTest (ToLower c) q = lowerBoundary (ToLower c) q) := by
  refine ⟨?_, isUpper_toLower, boundaryTest_toLower⟩
  unfold FuzzyMatch
  simp only [fuzzyMatchHelper_map_hay]

/-- C14: when a non-empty pattern occurs in the haystack at exactly one start `s`, the
case-sensitive forward and backward scans of `ExactMatchNaive` return the same pair,
`(s, s + len(p))`. -/
theorem exactMatchNaive_single_occurrence (U : Unicode) (h p : List Int) (hp : p ≠ [])
    (s : Nat) (hocc : occursAt h p s) (huniq : ∀ t, occursAt h p t → t = s) :
    ExactMatchNaive U true true h p = ExactMatchNaive U true false h p ∧
    ExactMatchNaive U true true h p = .ok ((s : Int), (s : Int) + p.length) := by
  have hb := hocc.1
  have hfwd : ExactMatchNaive U true true h p = .ok ((s : Int), (s : Int) + p.length) := by
    rcases exactMatchNaive_core U true true h p hp with ⟨s0, h1, _, h3⟩ | ⟨h1, _⟩
    · have := huniq s0 ((occ_forward_iff U h p s0).mp h1)
      subst this
      rw [h3]
      simp [exactSpan]
    · exact absurd ((occ_forward_iff U h p s).mpr hocc) (h1 s)
  have hbwd : ExactMatchNaive U true false h p = .ok ((s : Int), (s : Int) + p.length) := by
    rcases exactMatchNaive_core U true false h p hp with ⟨s0, h1, _, h3⟩ | ⟨h1, _⟩
    · have hb0 := h1.1
      have := huniq _ ((occ_backward_iff U h p s0 hb0).mp h1)
      rw [h3]
      simp only [exactSpan, Bool.false_eq_true, if_false]
      congr 2 <;> omega
    · exfalso
      apply h1 (h.length - p.length - s)
      rw [occ_backward_iff U h p _ (by omega)]
      have : h.length - p.length - (h.length - p.length - s) = s := by omega
      rw [this]
      exact hocc
  exact ⟨by rw [hfwd, hbwd], hfwd⟩

/-- Witness for C14: "bc" occurs in "abcd" at start 1 only. -/
theorem exactMatchNaive_single_occurrence_witness :
    ExactMatchNaive asciiUnicode true true (runesOf "abcd") (runesOf "bc")
      = ExactMatchNaive asciiUnicode true false (runesOf "abcd") (runesOf "bc") ∧
    ExactMatchNaive asciiUnicode true true (runesOf "abcd") (runesOf "bc")
      = .ok (((1 : Nat) : Int), ((1 : Nat) : Int) + (runesOf "bc").length) :=
  exactMatchNaive_single_occurrence asciiUnicode (runesOf "abcd") (runesOf "bc") (by decide)
    1 (by decide)
    (fun t ht => by
      have h1 := ht.1
      have h2 : (runesOf "abcd").length = 4 := by decide
      have h3 : (runesOf "bc").length = 2 := by decide
      have h4 : t ≤ 2 := by omega
      interval_cases t
      · exact absurd ht (by decide)
      · rfl
      · exact absurd ht (by decide))

/-- C15, as the code behaves: on haystack "ab" from index 1 with pattern "b" from index
0 the characters agree and the recursive call succeeds with end 2, yet the helper
returns `(0, 2)`, the pattern index, where the claim has `(1, 2)`, the haystack index. -/
theorem fuzzyMatchHelper_returns_pattern_index :
    ∀ n : Nat,
      ToLower ((runesOf "ab").getD 1 0) = ToLower ((runesOf "b").getD 0 0) ∧
      FuzzyMatchHelper (runesOf "ab") (runesOf "b") (n + 1) 2 1 = .ok (2, 2) ∧
      FuzzyMatchHelper (runesOf "ab") (runesOf "b") (n + 2) 1 0 = .ok (0, 2) := by
  intro n
  refine ⟨by decide, rfl, rfl⟩

/-- C16: a lowercase letter preceded by a non-letter is accepted by the scan loop: when
`h[i]`, at a position `i` after the cursor `r`, is a lowercase letter equal to the
lowered pattern character, `h[i-1]` is not a letter and the recursive call from `i + 1`
succeeds, then `FuzzyMatchHelper(h, r, pat, p)` succeeds; on "hello_world" with
pattern "hw" `FuzzyMatch` returns `(0, 7)`. -/
theorem fuzzyMatchHelper_accepts_word_start (h pat : List Int) (fuel r i p : Nat)
    (hri : r < i) (hi : i < h.length) (hp : p < pat.length) (hfuel : pat.length - p < fuel)
    (hlow : IsLower (h.getD i 0) = true) (hch : h.getD i 0 = ToLower (pat.getD p 0))
    (hprev : IsLetter (h.getD (i - 1) 0) = false)
    (hrec : ∃ s e : Int,
      FuzzyMatchHelper h pat fuel ((i : Int) + 1) ((p : Int) + 1) = .ok (s, e) ∧ 0 ≤ e) :
    (∃ s e : Int, FuzzyMatchHelper h pat fuel (r : Int) (p : Int) = .ok (s, e) ∧ 0 ≤ e) ∧
    FuzzyMatch true true (runesOf "hello_world") (runesOf "hw") = .ok (0, 7) := by
  refine ⟨?_, by decide⟩
  obtain ⟨s, e, hres, he⟩ := hrec
  have hi1 : ((i : Int) + 1) = ((i + 1 : Nat) : Int) := by push_cast; rfl
  have hp1 : ((p : Int) + 1) = ((p + 1 : Nat) : Int) := by push_cast; rfl
  rw [hi1, hp1] at hres
  have hrest : ∃ rest, admissible h pat (i + 1) (p + 1) rest := by
    rcases fuzzyMatchHelper_spec h pat fuel (i + 1) (p + 1) (by omega) (by omega) (by omega)
      with ⟨rest, c1, _⟩ | ⟨_, c2⟩
    · exact ⟨rest, c1⟩
    · rw [c2] at hres
      injection hres with hres
      have := congrArg Prod.snd hres
      simp only at this
      omega
  obtain ⟨rest, hadm⟩ := hrest
  have hadm' : admissible h pat r p (i :: rest) := by
    refine ⟨by omega, hi, hp, ?_, Or.inr ?_, hadm⟩
    · rw [toLower_of_isLower _ hlow]; exact hch
    · rw [toLower_of_isLower _ hlow, toLower_of_not_isLetter _ hprev]
      unfold lowerBoundary
      rw [hlow, hprev]
      rfl
  rcases fuzzyMatchHelper_spec h pat fuel r p (by omega) (by omega) hfuel
    with ⟨idx, _, c2⟩ | ⟨c1, _⟩
  · exact ⟨_, _, c2, Int.natCast_nonneg _⟩
  · exact absurd hadm' (c1 _)

/-- Witness for C16: in "a_b" the `b` at index 2 follows a separator. -/
theorem fuzzyMatchHelper_accepts_word_start_witness :
    (∃ s e : Int, FuzzyMatchHelper (runesOf "a_b") (runesOf "b") 2 ((0 : Nat) : Int)
        ((0 : Nat) : Int) = .ok (s, e) ∧ 0 ≤ e) ∧
    FuzzyMatch true true (runesOf "hello_world") (runesOf "hw") = .ok (0, 7) :=
  fuzzyMatchHelper_accepts_word_start (runesOf "a_b") (runesOf "b") 2 0 2 0
    (by decide) (by decide) (by decide) (by decide) (by decide) (by decide) (by decide)
    ⟨3, 3, by decide, by decide⟩

/-- C20: every prefix match is a fuzzy match with the same span: when the
case-sensitive `PrefixMatch` returns `(0, len(p))`, and more generally when
`len(p) <= len(h)` and `ToLower(h[k]) = ToLower(p[k])` for every `k < len(p)`,
`FuzzyMatch` returns `(0, len(p))`. -/
theorem prefixMatch_implies_fuzzyMatch (U : Unicode) (cs fwd fwd' : Bool) (h p : List Int) :
    (PrefixMatch U true fwd' h p = .ok (0, (p.length : Int)) →
        FuzzyMatch cs fwd h p = .ok (0, (p.length : Int))) ∧
    ((p.length ≤ h.length ∧
        ∀ k, k < p.length → ToLower (h.getD k 0) = ToLower (p.getD k 0)) →
        FuzzyMatch cs fwd h p = .ok (0, (p.length : Int))) := by
  have gen : (p.length ≤ h.length ∧
        ∀ k, k < p.length → ToLower (h.getD k 0) = ToLower (p.getD k 0)) →
      FuzzyMatch cs fwd h p = .ok (0, (p.length : Int)) := by
    rintro ⟨hlen, hch⟩
    unfold FuzzyMatch
    by_cases h0 : p.length = 0
    · simp [h0]
    · simp only [h0, if_false]
      have := fuzzyMatchHelper_diagonal h p hlen hch (p.length + 1) 0 (Nat.zero_le _)
        (by omega)
      simpa using this
  refine ⟨?_, gen⟩
  intro hpre
  apply gen
  by_cases hc : p.length ≤ h.length ∧
      ∀ k, k < p.length → foldWith U true (h.getD k 0) = p.getD k 0
  · refine ⟨hc.1, ?_⟩
    intro k hk
    have := hc.2 k hk
    rw [foldWith_caseSensitive] at this
    rw [this]
  · rw [(prefixMatch_spec U true fwd' h p).2 hc] at hpre
    injection hpre with hpre
    exact absurd hpre.symm (zero_len_ne_sentinel _)

theorem spanInRange_ok (h : List Int) (res : Result) (hres : spanInRange h res) :
    ∃ s e : Int, res = .ok (s, e) := by
  obtain ⟨s, e, h1, _⟩ := hres
  exact ⟨s, e, h1⟩

theorem ok_ne_fault (res : Result) (f : Fault) (hres : ∃ s e : Int, res = .ok (s, e)) :
    res ≠ .error f := by
  obtain ⟨s, e, h1⟩ := hres
  rw [h1]
  exact fun hx => by injection hx

/-- C17: every matcher returns a pair on every input.  The recursion of
`FuzzyMatchHelper` is bounded by `len(pat) - p`: any fuel above it yields a result.  The
scan loop of `ExactMatchNaive` yields a result with any fuel above
`(len(runes) - (index - pidx)) * (len(pattern) + 1) + (len(pattern) - pidx)`, a measure
that decreases at every iteration because a mismatch moves the candidate start
`index - pidx` one step forward. -/
theorem matchers_terminate (U : Unicode) (trim : List Int → List Int) (cs fwd : Bool)
    (h p : List Int) :
    (∃ s e : Int, FuzzyMatch cs fwd h p = .ok (s, e)) ∧
    (∃ s e : Int, ExactMatchNaive U cs fwd h p = .ok (s, e)) ∧
    (∃ s e : Int, PrefixMatch U cs fwd h p = .ok (s, e)) ∧
    (∃ s e : Int, SuffixMatch U trim cs fwd h p = .ok (s, e)) ∧
    (∃ s e : Int, EqualMatch U cs fwd h p = .ok (s, e)) ∧
    (∀ fuel r q : Nat, r ≤ h.length → q ≤ p.length → p.length - q < fuel →
      ∃ s e : Int, FuzzyMatchHelper h p fuel (r : Int) (q : Int) = .ok (s, e)) ∧
    (∀ fuel i j : Nat, j < p.length → j ≤ i → i ≤ h.length →
      (h.length - (i - j)) * (p.length + 1) + (p.length - j) < fuel →
      ∃ s e : Int, exactLoop U cs fwd h p fuel (i : Int) (j : Int) = .ok (s, e)) := by
  refine ⟨spanInRange_ok h _ (fuzzyMatch_spanInRange cs fwd h p),
    spanInRange_ok h _ (exactMatchNaive_spanInRange U cs fwd h p),
    spanInRange_ok h _ (prefixMatch_spanInRange U cs fwd h p), ?_,
    spanInRange_ok h _ (equalMatch_spanInRange U cs fwd h p), ?_,
    exactLoop_total U cs fwd h p⟩
  · by_cases hc : p.length ≤ (trim h).length ∧ ∀ k, k < p.length →
        foldWith U cs ((trim h).getD ((trim h).length - p.length + k) 0) = p.getD k 0
    · exact ⟨_, _, (suffixMatch_spec U trim cs fwd h p).1 hc⟩
    · exact ⟨_, _, (suffixMatch_spec U trim cs fwd h p).2 hc⟩
  · intro fuel r q hr hq hf
    rcases fuzzyMatchHelper_spec h p fuel r q hr hq hf with ⟨idx, _, c2⟩ | ⟨_, c2⟩
    · exact ⟨_, _, c2⟩
    · exact ⟨_, _, c2⟩

/-- C18: no slice access goes out of range.  An access through `runeAt` faults exactly
when `0 <= index < length` fails; the scan loop of `ExactMatchNaive`, from any state
with `pidx < len(pattern)` and `pidx <= index` (the states reached, also after the
rewind), and `FuzzyMatchHelper`, from any state with `r <= len(runes)` and
`p <= len(pat)` (the states reached from `FuzzyMatch`), never run into such a fault,
however long they run; nor do `ExactMatchNaive` and `FuzzyMatch`. -/
theorem no_slice_access_out_of_range (U : Unicode) (cs fwd : Bool) (h p : List Int) :
    (∀ (l : List Int) (i : Int) (dir : Bool),
      runeAt l i (l.length : Int) dir = .error .indexOutOfRange ↔
        ¬ (0 ≤ i ∧ i < (l.length : Int))) ∧
    (∀ fuel i j : Nat, j < p.length → j ≤ i →
      exactLoop U cs fwd h p fuel (i : Int) (j : Int) ≠ .error .indexOutOfRange) ∧
    ExactMatchNaive U cs fwd h p ≠ .error .indexOutOfRange ∧
    (∀ fuel r q : Nat, r ≤ h.length → q ≤ p.length →
      FuzzyMatchHelper h p fuel (r : Int) (q : Int) ≠ .error .indexOutOfRange) ∧
    FuzzyMatch cs fwd h p ≠ .error .indexOutOfRange := by
  refine ⟨?_, exactLoop_safe U cs fwd h p,
    ok_ne_fault _ _ (spanInRange_ok h _ (exactMatchNaive_spanInRange U cs fwd h p)),
    fuzzyMatchHelper_safe h p,
    ok_ne_fault _ _ (spanInRange_ok h _ (fuzzyMatch_spanInRange cs fwd h p))⟩
  intro l i dir
  unfold runeAt
  cases dir
  · simp only [Bool.false_eq_true, if_false]
    rw [index_fault_iff]
    constructor
    · intro hx hy; apply hx; omega
    · intro hx hy; apply hx; omega
  · simp only [if_true]
    exact index_fault_iff l i

end Algo
